import Mathlib

/-!
Verification development for the `link-extractor` crawler
(`src/link_extractor.py`).  URLs and all other strings are embedded as
`List Char`; Python sets are embedded as duplicate-free lists, and the
lock-protected critical sections of the threaded crawler are embedded as
atomic steps of explicit transition systems.

The URL-string machinery (`urlsplitCore`, `urlparseM`, `urljoinM`) is a
model of CPython's `urllib.parse` (`urlsplit`, `urlparse`, `urljoin`,
`urlunsplit`) as the source uses it, restricted to ASCII text: scheme
detection at the first `:`, authority after `//` up to the first of
`/ ? #`, fragment split at the first `#`, query split at the first `?`,
params split at the first `;` of the final path segment, removal of
tab/CR/LF characters before parsing, and ASCII lowercasing.
-/

namespace LinkExtractor

abbrev Chars := List Char

def str (s : String) : Chars := s.data

/-- ASCII uppercase letter test, by code point (Python comparisons on ASCII). -/
def upperAlpha (c : Char) : Bool := decide (65 ≤ c.toNat) && decide (c.toNat ≤ 90)

/-- ASCII lowercase letter test, by code point. -/
def lowerAlpha (c : Char) : Bool := decide (97 ≤ c.toNat) && decide (c.toNat ≤ 122)

/-- ASCII letter (`str.isalpha` restricted to ASCII, as `urlsplit` requires
`url[0].isascii() and url[0].isalpha()`). -/
def asciiAlpha (c : Char) : Bool := upperAlpha c || lowerAlpha c

/-- ASCII digit. -/
def asciiDigit (c : Char) : Bool := decide (48 ≤ c.toNat) && decide (c.toNat ≤ 57)

/-- The characters allowed in a URL scheme (`urllib.parse.scheme_chars`). -/
def schemeChar (c : Char) : Bool :=
  asciiAlpha c || asciiDigit c || decide (c = '+') || decide (c = '-') || decide (c = '.')

/-- ASCII lowercasing of one character (`str.lower` on ASCII input). -/
def lowerChar (c : Char) : Char :=
  if upperAlpha c then Char.ofNat (c.toNat + 32) else c

/-- ASCII lowercasing of a string. -/
def lowerStr (l : Chars) : Chars := l.map lowerChar

/-- The characters `urlsplit` deletes before parsing
(`_UNSAFE_URL_BYTES_TO_REMOVE`: tab, CR, LF). -/
def ctlChar (c : Char) : Bool := decide (c = '\t') || decide (c = '\r') || decide (c = '\n')

def removeCtl (l : Chars) : Chars := l.filter (fun c => ! ctlChar c)

/-- `hasPre pat l` holds when `pat` is an initial run of `l`
(Python `str.startswith` / slicing comparisons such as `url[:2] == '//'`). -/
def hasPre : Chars → Chars → Bool
  | [], _ => true
  | _ :: _, [] => false
  | a :: as, b :: bs => decide (a = b) && hasPre as bs

def notChar (a : Char) : Char → Bool := fun c => decide (c ≠ a)

/-- Split at the first occurrence of `a` (Python `str.split(a, 1)` /
`str.find(a)`): returns the part before the first `a` and, when `a` occurs,
the part after it. -/
def splitAtFirst (a : Char) (l : Chars) : Chars × Option Chars :=
  match l.dropWhile (notChar a) with
  | [] => (l, none)
  | _ :: rest => (l.takeWhile (notChar a), some rest)

/-- Characters terminating the authority component (`_splitnetloc` stops at
the first of `/`, `?`, `#`). -/
def stopChar (c : Char) : Bool := decide (c = '/') || decide (c = '?') || decide (c = '#')

def keepNetloc (c : Char) : Bool := ! stopChar c

/-- A valid scheme candidate: nonempty, ASCII-letter first, all scheme
characters (the `i > 0 and url[0].isascii() and url[0].isalpha()` plus
`scheme_chars` loop of `urlsplit`). -/
def validSchemeStr (s : Chars) : Bool :=
  match s with
  | [] => false
  | c :: _ => asciiAlpha c && s.all schemeChar

/-- Scheme detection of `urlsplit`: split at the first `:`; if the prefix is
a valid scheme it is lowercased and consumed, otherwise the default scheme
is kept and the input left intact. -/
def splitSchemeCore (dflt : Chars) (u : Chars) : Chars × Chars :=
  match splitAtFirst ':' u with
  | (_, none) => (dflt, u)
  | (pre, some rest) => if validSchemeStr pre then (lowerStr pre, rest) else (dflt, u)

/-- Authority detection of `urlsplit`: when the remainder starts with `//`,
the netloc extends to the first of `/ ? #`. -/
def splitNetlocCore (u : Chars) : Chars × Chars :=
  if hasPre ['/', '/'] u then
    ((u.drop 2).takeWhile keepNetloc, (u.drop 2).dropWhile keepNetloc)
  else ([], u)

structure ParseResult where
  scheme : Chars
  netloc : Chars
  path : Chars
  params : Chars
  query : Chars
  fragment : Chars
deriving DecidableEq

/-- `urllib.parse.urlsplit` on control-character-free input, with a default
scheme (`params` is always empty here; `urlparseM` fills it). -/
def urlsplitCore (dflt : Chars) (u : Chars) : ParseResult :=
  let s1 := splitSchemeCore dflt u
  let s2 := splitNetlocCore s1.2
  let s3 := splitAtFirst '#' s2.2
  let s4 := splitAtFirst '?' s3.1
  ⟨s1.1, s2.1, s4.1, [], s4.2.getD [], s3.2.getD []⟩

/-- `urllib.parse._splitparams`: split the path at the first `;` of its last
segment (searching from the last `/` when one is present). -/
def splitParamsCore (p : Chars) : Chars × Chars :=
  if '/' ∈ p then
    let seg := (p.reverse.takeWhile (notChar '/')).reverse
    let stem := (p.reverse.dropWhile (notChar '/')).reverse
    match splitAtFirst ';' seg with
    | (_, none) => (p, [])
    | (a, some b) => (stem ++ a, b)
  else
    match splitAtFirst ';' p with
    | (_, none) => (p, [])
    | (a, some b) => (a, b)

/-- `urllib.parse.urlparse` with a default scheme: `urlsplit` after removing
tab/CR/LF, then the params split when the path contains `;`. -/
def urlparseM (dflt : Chars) (u : Chars) : ParseResult :=
  if ';' ∈ (urlsplitCore dflt (removeCtl u)).path then
    ⟨(urlsplitCore dflt (removeCtl u)).scheme,
     (urlsplitCore dflt (removeCtl u)).netloc,
     (splitParamsCore (urlsplitCore dflt (removeCtl u)).path).1,
     (splitParamsCore (urlsplitCore dflt (removeCtl u)).path).2,
     (urlsplitCore dflt (removeCtl u)).query,
     (urlsplitCore dflt (removeCtl u)).fragment⟩
  else urlsplitCore dflt (removeCtl u)

/-- `str.rstrip('/')`: remove every trailing `/`. -/
def rstripSlashes (l : Chars) : Chars :=
  (l.reverse.dropWhile (fun c => decide (c = '/'))).reverse

/-- The `Invalid IPv6 URL` test of `urlsplit`: a `[` or `]` in the
extracted authority whose partner bracket is missing makes `urlsplit`
(hence `urlparse`) raise `ValueError`.  Python 3.11 additionally validates
a matched bracketed host as an IPv6/IPvFuture address; the theorems below
that depend on this check hypothesise a bracket-free authority, where both
checks are vacuously inactive. -/
def invalidIPv6 (u : Chars) : Bool :=
  (decide ('[' ∈ (urlsplitCore [] (removeCtl u)).netloc) &&
     decide (']' ∉ (urlsplitCore [] (removeCtl u)).netloc)) ||
  (decide (']' ∈ (urlsplitCore [] (removeCtl u)).netloc) &&
     decide ('[' ∉ (urlsplitCore [] (removeCtl u)).netloc))

/-- The `try` body of `normalize_url`: rebuild
`scheme://netloc + path (+ '?' + query when nonempty)` from the parse and
strip every trailing slash of the result. -/
def normalizeRebuild (u : Chars) : Chars :=
  rstripSlashes
    ((urlparseM [] u).scheme ++ [':', '/', '/'] ++ (urlparseM [] u).netloc ++
      (urlparseM [] u).path ++
      (if (urlparseM [] u).query = [] then [] else '?' :: (urlparseM [] u).query))

/-- `LinkExtractor.normalize_url` (src/link_extractor.py:471): rebuild and
strip, except that when `urlparse` raises the `except Exception` branch
returns the input verbatim. -/
def normalizeUrl (u : Chars) : Chars :=
  if invalidIPv6 u then u else normalizeRebuild u

/-- The extension denylist of `is_valid_url` (src/link_extractor.py:536). -/
def skipExtensions : List Chars :=
  [str ".pdf", str ".jpg", str ".jpeg", str ".png", str ".gif", str ".css",
   str ".js", str ".ico", str ".svg", str ".woff", str ".woff2", str ".ttf",
   str ".eot", str ".zip", str ".rar", str ".exe", str ".dmg", str ".mp4",
   str ".mp3", str ".avi", str ".mov", str ".doc", str ".docx", str ".xls",
   str ".xlsx", str ".ppt", str ".pptx"]

/-- `LinkExtractor.is_valid_url` (src/link_extractor.py:517): normalize
first, then require a scheme in {http, https}, a nonempty host, length at
most 2000, and no denylisted extension at the end of the lowercased URL. -/
def isValidUrl (url : Chars) : Bool :=
  let u := normalizeUrl url
  let p := urlparseM [] u
  if p.scheme = [] ∨ p.netloc = [] then false
  else if ¬ (p.scheme = str "http" ∨ p.scheme = str "https") then false
  else if 2000 < u.length then false
  else ! skipExtensions.any (fun ext => ext.isSuffixOf (lowerStr u))

/-- The `www.` strip of `is_domain_ignored`
(`if domain.startswith('www.'): domain = domain[4:]`). -/
def wwwStripped (d : Chars) : Chars :=
  if hasPre (str "www.") d then d.drop 4 else d

/-- `LinkExtractor.is_domain_ignored` (src/link_extractor.py:448): with a
nonempty ignore set, lowercase the host, strip a leading `www.`, and match
each entry exactly or as a `.entry` suffix. -/
def isDomainIgnored (ignored : List Chars) (url : Chars) : Bool :=
  if ignored = [] then false
  else
    ignored.any (fun ig =>
      decide (wwwStripped (lowerStr (urlparseM [] url).netloc) = ig) ||
      List.isSuffixOf ('.' :: ig) (wwwStripped (lowerStr (urlparseM [] url).netloc)))

/-- Crawl configuration (the relevant constructor state of
`LinkExtractor.__init__`). -/
structure Config where
  onlyThisDomain : Option Chars
  ignoredDomains : List Chars
  maxLinks : Option Nat
  maxUrlsPerDomain : Nat
  threads : Nat
deriving DecidableEq

/-- `LinkExtractor.should_follow_domain` (src/link_extractor.py:563):
reject ignored domains, then when a scope domain is set require the
lowercased host to equal it or end in `.scope`. -/
def shouldFollowDomain (cfg : Config) (url : Chars) : Bool :=
  if isDomainIgnored cfg.ignoredDomains url then false
  else
    match cfg.onlyThisDomain with
    | some t =>
      decide (lowerStr (urlparseM [] url).netloc = lowerStr t) ||
      List.isSuffixOf ('.' :: lowerStr t) (lowerStr (urlparseM [] url).netloc)
    | none => true

/-- Per-host dispatch counters (`self.domain_url_count`). -/
def lookupDomain : List (Chars × Nat) → Chars → Nat
  | [], _ => 0
  | (k, v) :: rest, h => if k = h then v else lookupDomain rest h

def bumpDomain : List (Chars × Nat) → Chars → List (Chars × Nat)
  | [], h => [(h, 1)]
  | (k, v) :: rest, h => if k = h then (k, v + 1) :: rest else (k, v) :: bumpDomain rest h

/-- `LinkExtractor.is_url_limit_reached` (src/link_extractor.py:483). -/
def isUrlLimitReached (cfg : Config) (dc : List (Chars × Nat)) (url : Chars) : Bool :=
  decide (cfg.maxUrlsPerDomain ≤ lookupDomain dc (lowerStr (urlparseM [] url).netloc))

/-- `LinkExtractor.should_crawl_url` (src/link_extractor.py:548). -/
def shouldCrawlUrl (cfg : Config) (dc : List (Chars × Nat)) (url : Chars) : Bool :=
  ! isDomainIgnored cfg.ignoredDomains url && ! isUrlLimitReached cfg dc url

/-! ### `urllib.parse.urljoin`

Model of CPython's `urljoin`/`urlunsplit`/`urlunparse`, used by the link
harvester to absolutize hrefs against the page URL. -/

def usesRelative : List Chars :=
  [str "", str "ftp", str "http", str "gopher", str "nntp", str "imap",
   str "wais", str "file", str "https", str "shttp", str "mms",
   str "prospero", str "rtsp", str "rtspu", str "sftp", str "svn",
   str "svn+ssh", str "ws", str "wss"]

def usesNetloc : List Chars :=
  [str "", str "ftp", str "http", str "gopher", str "nntp", str "telnet",
   str "imap", str "wais", str "file", str "mms", str "https", str "shttp",
   str "snews", str "prospero", str "rtsp", str "rtspu", str "rsync",
   str "svn", str "svn+ssh", str "sftp", str "nfs", str "git",
   str "git+ssh", str "ws", str "wss", str "itms-services"]

/-- `urllib.parse.urlunsplit`. -/
def urlunsplitM (scheme netloc url query fragment : Chars) : Chars :=
  let url1 :=
    if netloc ≠ [] ∨ (url ≠ [] ∧ hasPre ['/', '/'] url) then
      let url0 := if url ≠ [] ∧ ¬ hasPre ['/'] url then '/' :: url else url
      '/' :: '/' :: (netloc ++ url0)
    else url
  let url2 := if scheme ≠ [] then scheme ++ ':' :: url1 else url1
  let url3 := if query ≠ [] then url2 ++ '?' :: query else url2
  if fragment ≠ [] then url3 ++ '#' :: fragment else url3

/-- `urllib.parse.urlunparse`. -/
def urlunparseM (r : ParseResult) : Chars :=
  let u := if r.params ≠ [] then r.path ++ ';' :: r.params else r.path
  urlunsplitM r.scheme r.netloc u r.query r.fragment

/-- Python `str.split(sep)` for a one-character separator (fueled; the fuel
`l.length` suffices since every round consumes at least one character). -/
def splitOnF (c : Char) : Nat → Chars → List Chars
  | 0, l => [l]
  | fuel + 1, l =>
    match l.dropWhile (notChar c) with
    | [] => [l]
    | _ :: rest => l.takeWhile (notChar c) :: splitOnF c fuel rest

def splitOn (c : Char) (l : Chars) : List Chars := splitOnF c l.length l

/-- `segments[1:-1] = filter(None, segments[1:-1])` of `urljoin`. -/
def filterMiddle : List Chars → List Chars
  | [] => []
  | [a] => [a]
  | a :: rest =>
    a :: (rest.dropLast.filter (fun s => ! decide (s = []))) ++ [rest.getLast?.getD []]

/-- The segment-resolution loop of `urljoin` (`.` skipped, `..` pops,
popping an empty stack is ignored). -/
def resolveSegs : List Chars → List Chars → List Chars
  | acc, [] => acc
  | acc, seg :: rest =>
    if seg = ['.', '.'] then resolveSegs acc.dropLast rest
    else if seg = ['.'] then resolveSegs acc rest
    else resolveSegs (acc ++ [seg]) rest

/-- `urllib.parse.urljoin`, including the `'/'.join(resolved_path) or '/'`
fallback for an empty resolved path. -/
def urljoinM (base url : Chars) : Chars :=
  if base = [] then url
  else if url = [] then base
  else
    let b := urlparseM [] base
    let r := urlparseM b.scheme url
    if r.scheme ≠ b.scheme ∨ r.scheme ∉ usesRelative then url
    else
      let step (netloc : Chars) : Chars :=
        if r.path = [] ∧ r.params = [] then
          let q := if r.query = [] then b.query else r.query
          urlunparseM ⟨r.scheme, netloc, b.path, b.params, q, r.fragment⟩
        else
          let baseParts0 := splitOn '/' b.path
          let baseParts :=
            if baseParts0.getLast?.getD [] ≠ [] then baseParts0.dropLast else baseParts0
          let segments :=
            if hasPre ['/'] r.path then splitOn '/' r.path
            else filterMiddle (baseParts ++ splitOn '/' r.path)
          let resolved0 := resolveSegs [] segments
          let resolved :=
            if segments.getLast?.getD [] = ['.'] ∨ segments.getLast?.getD [] = ['.', '.'] then
              resolved0 ++ [[]]
            else resolved0
          let joined := List.intercalate ['/'] resolved
          urlunparseM ⟨r.scheme, netloc, if joined = [] then ['/'] else joined,
                       r.params, r.query, r.fragment⟩
      if r.scheme ∈ usesNetloc then
        if r.netloc ≠ [] then urlunparseM r
        else step b.netloc
      else step r.netloc

/-! ### Crawl state and the worker transitions

The shared crawl state of the `LinkExtractor` instance.  Python sets
(`visited_urls`, `found_links`, `saved_links`) are embedded as lists whose
insertions are membership-guarded, exactly as in the source; `urls_to_visit`
is the frontier deque; `ledger` is the line sequence of the output file;
`fetched` logs every invocation of the page fetcher
(`extract_links_from_page`), so that at-most-once fetching is expressible. -/

structure CrawlState where
  running : Bool
  visited : List Chars
  found : List Chars
  queue : List Chars
  domainCount : List (Chars × Nat)
  ledger : List Chars
  saved : List Chars
  fetched : List Chars
deriving DecidableEq

/-- `LinkExtractor.save_link_realtime` (src/link_extractor.py:753): under
the file lock, append the link to the output file and record it in
`saved_links` unless already saved. -/
def saveLinkRealtime (st : CrawlState) (link : Chars) : CrawlState :=
  if link ∈ st.saved then st
  else { st with ledger := st.ledger ++ [link], saved := link :: st.saved }

/-- The `max_links` admission guard of `process_url`
(`self.max_links is None or len(self.found_links) < self.max_links`). -/
def capOk (cfg : Config) (st : CrawlState) : Bool :=
  match cfg.maxLinks with
  | none => true
  | some m => decide (st.found.length < m)

/-- One iteration of the harvested-link loop of `process_url`
(src/link_extractor.py:701-718), executed under the shared lock: record the
link in `found_links` when new and under the cap, save it in real time, and
enqueue it when it is in scope, crawlable, unvisited, not already queued,
and the frontier holds fewer than 5000 entries. -/
def processLink (cfg : Config) (st : CrawlState) (link : Chars) : CrawlState :=
  if link ∉ st.found ∧ capOk cfg st = true then
    let st1 := saveLinkRealtime { st with found := link :: st.found } link
    if shouldFollowDomain cfg link = true ∧ shouldCrawlUrl cfg st.domainCount link = true ∧
        link ∉ st.visited ∧ link ∉ st.queue ∧ st.queue.length < 5000 then
      { st1 with queue := st1.queue ++ [link] }
    else st1
  else st

/-- First-occurrence deduplication (`list(set(links))` keeps one copy of
each link; the set's ordering is immaterial to every claim below). -/
def dedupFirst (l : List Chars) : List Chars :=
  l.foldl (fun acc x => if x ∈ acc then acc else acc ++ [x]) []

/-- The successful-fetch path of `extract_links_from_page`
(src/link_extractor.py:623-657): the parser oracle `pages` yields the href
attributes of the page; each is absolutized against the page URL,
normalized, kept when `is_valid_url` accepts it, deduplicated, and capped
at 100 links per page. -/
def harvest (pages : Chars → List Chars) (u : Chars) : List Chars :=
  (dedupFirst (((pages u).map (fun h => normalizeUrl (urljoinM u h))).filter isValidUrl)).take 100

/-- The claim section of `process_url` (src/link_extractor.py:677-696):
check `running`, normalize, and — atomically under the shared lock — return
if already visited, else mark visited and bump the host counter; the fetch
(`extract_links_from_page`) is then performed, logged here in `fetched`. -/
def claimFetchStep (st : CrawlState) (url : Chars) : CrawlState :=
  if st.running = false then st
  else if normalizeUrl url ∈ st.visited then st
  else
    { st with
      visited := normalizeUrl url :: st.visited,
      fetched := st.fetched ++ [normalizeUrl url],
      domainCount :=
        bumpDomain st.domainCount (lowerStr (urlparseM [] (normalizeUrl url)).netloc) }

/-- `LinkExtractor.process_url` (src/link_extractor.py:675): the claim
section followed by the harvested-link loop over the fetched page. -/
def processUrl (pages : Chars → List Chars) (cfg : Config) (st : CrawlState)
    (url : Chars) : CrawlState :=
  if st.running = false then st
  else if normalizeUrl url ∈ st.visited then st
  else
    (harvest pages (normalizeUrl url)).foldl (processLink cfg)
      { st with
        visited := normalizeUrl url :: st.visited,
        fetched := st.fetched ++ [normalizeUrl url],
        domainCount :=
          bumpDomain st.domainCount (lowerStr (urlparseM [] (normalizeUrl url)).netloc) }

/-- Lexicographic comparison on strings (Python's `sorted` order on the
batch written by `save_links`). -/
def lexLe : Chars → Chars → Bool
  | [], _ => true
  | _ :: _, [] => false
  | a :: as, b :: bs => if a = b then lexLe as bs else decide (a < b)

/-- `LinkExtractor.save_links` (src/link_extractor.py:730): under the file
lock, append the sorted set `found_links - saved_links` to the output file
and mark all of it saved. -/
def saveLinksBatch (st : CrawlState) : CrawlState :=
  let us := List.insertionSort (fun a b => lexLe a b = true)
    (st.found.filter (fun l => decide (l ∉ st.saved)))
  { st with ledger := st.ledger ++ us, saved := st.saved ++ us }

/-- The atomic steps of the concurrent crawler, at lock-section
granularity: `claimFetch` is the claim section of one worker (its fetch
included), `ingest` is the harvested-link loop of one worker run under the
shared lock with whatever link list its fetch produced, and `batchSave` is
the periodic `save_links` under the file lock.  Quantifying over arbitrary
sequences of these steps covers every interleaving of the worker pool. -/
inductive CrawlOp where
  | claimFetch (url : Chars)
  | ingest (links : List Chars)
  | batchSave
deriving DecidableEq

def applyOp (cfg : Config) (st : CrawlState) : CrawlOp → CrawlState
  | .claimFetch url => claimFetchStep st url
  | .ingest links => links.foldl (processLink cfg) st
  | .batchSave => saveLinksBatch st

/-- `LinkExtractor.__init__` (src/link_extractor.py:65-90, 133-134): empty
sets, a truncated output file, and the seed `https://{domain}` in the
frontier. -/
def initState (domain : Chars) : CrawlState :=
  { running := true, visited := [], found := [], queue := [str "https://" ++ domain],
    domainCount := [], ledger := [], saved := [], fetched := [] }

/-- The stop test of the orchestration loop (src/link_extractor.py:893):
`max_links is not None and len(found_links) >= max_links`. -/
def capReached (cfg : Config) (st : CrawlState) : Bool :=
  match cfg.maxLinks with
  | none => false
  | some m => decide (m ≤ st.found.length)

/-- One iteration of the orchestration loop of `run`
(src/link_extractor.py:831-898), in its sequential embedding: dispatch up
to `threads` frontier URLs through `process_url`. -/
def loopIter (pages : Chars → List Chars) (cfg : Config) (st : CrawlState) : CrawlState :=
  (st.queue.take cfg.threads).foldl (processUrl pages cfg)
    { st with queue := st.queue.drop cfg.threads }

/-- The fueled orchestration loop: while running with a nonempty frontier,
run one iteration, then stop when the `max_links` check fires. -/
def runLoop (pages : Chars → List Chars) (cfg : Config) : Nat → CrawlState → CrawlState
  | 0, st => st
  | n + 1, st =>
    if st.running = false ∨ st.queue = [] then st
    else if capReached cfg (loopIter pages cfg st) = true then loopIter pages cfg st
    else runLoop pages cfg n (loopIter pages cfg st)

/-! ### Proxy manager -/

/-- `LinkExtractor._get_new_proxy` (src/link_extractor.py:211): up to 10
attempts; each attempt's provider outcome is an optional candidate endpoint
together with its liveness-test result.  A candidate already in the failed
set is skipped; a candidate failing its test joins the failed set; the
first live fresh candidate is installed. -/
def getNewProxy : List Chars → List (Option Chars × Bool) → Option Chars
  | _, [] => none
  | failed, (none, _) :: rest => getNewProxy failed rest
  | failed, (some p, ok) :: rest =>
    if p ∈ failed then getNewProxy failed rest
    else if ok then some p
    else getNewProxy (p :: failed) rest

/-- `LinkExtractor._ensure_proxy_connection` (src/link_extractor.py:341):
true when proxying is disabled or a proxy is already installed; otherwise
attempt acquisition (bounded by `max_proxy_attempts = 10`) and report
whether it succeeded. -/
def ensureProxyConnection (useProxy : Bool) (current : Option Chars)
    (failed : List Chars) (attempts : List (Option Chars × Bool)) : Bool :=
  if useProxy = false then true
  else
    match current with
    | none => (getNewProxy failed (attempts.take 10)).isSome
    | some _ => true

/-- The proxy gate of `extract_links_from_page`
(src/link_extractor.py:589-592): when proxying is enabled and
`_ensure_proxy_connection` reports failure, the page is skipped — the
function returns an empty link list without requesting the page.  The
second component records whether the HTTP request was performed. -/
def extractLinksGate (useProxy : Bool) (current : Option Chars) (failed : List Chars)
    (attempts : List (Option Chars × Bool)) (pageLinks : List Chars) :
    List Chars × Bool :=
  if useProxy = true ∧ ensureProxyConnection useProxy current failed attempts = false then
    ([], false)
  else (pageLinks, true)

/-- `LinkExtractor._cleanup_failed_proxies` (src/link_extractor.py:423):
`failed_proxies = set(list(failed_proxies)[-25:])` once more than 50 are
tracked.  The argument is `list(self.failed_proxies)` — the set's iteration
order, which in CPython is hash order, not insertion order. -/
def cleanupFailedProxies (enumd : List Chars) : List Chars :=
  if 50 < enumd.length then enumd.drop (enumd.length - 25) else enumd

/-! ### Invariants and concrete instances -/

/-- Fetch bookkeeping invariant: the fetch log is duplicate-free and every
fetched URL has been claimed into `visited_urls`. -/
def FetchInv (st : CrawlState) : Prop :=
  st.fetched.Nodup ∧ ∀ u ∈ st.fetched, u ∈ st.visited

/-- Persistence-sink invariant: the output file is duplicate-free, every
written line is tracked in `saved_links`, and `found_links` is a set. -/
def SinkInv (st : CrawlState) : Prop :=
  st.ledger.Nodup ∧ (∀ l ∈ st.ledger, l ∈ st.saved) ∧ st.found.Nodup

/-- A configuration with no scope filter, no ignore list and no link cap. -/
def cfgPlain : Config := ⟨none, [], none, 1000, 5⟩

def linkC1 : Chars := str "http://x.test/a"

/-- A crawl state in which `linkC1` is already collected (and saved) but
neither visited nor queued. -/
def stateC1 : CrawlState :=
  ⟨true, [], [linkC1], [], [], [linkC1], [linkC1], []⟩

/-- The scenario configuration: scope domain `a.test`. -/
def cfgScenario : Config := ⟨some (str "a.test"), [], none, 1000, 5⟩

/-- The scenario page oracle: the seed page yields the three harvested
hrefs; every other page is empty. -/
def pagesScenario : Chars → List Chars := fun u =>
  if u = str "https://a.test" then
    [str "/b", str "https://a.test/b", str "https://c.test/x"]
  else []

/-- The crawl state right after `run` pops the seed from the frontier. -/
def stateScenario : CrawlState := { initState (str "a.test") with queue := [] }

/-- The crawl state after the seed page has been processed. -/
def afterScenario : CrawlState :=
  processUrl pagesScenario cfgScenario stateScenario (str "https://a.test")

/-- A configuration with `max_links = 2`. -/
def cfgCap : Config := ⟨none, [], some 2, 1000, 5⟩

/-- A state whose result set has reached the cap of `cfgCap`. -/
def stateCapFull : CrawlState :=
  { initState (str "a.test") with found := [str "https://a.test/x", str "https://a.test/y"] }

/-- Ten proxy-provider attempts that all yield no candidate. -/
def attemptsFail : List (Option Chars × Bool) := List.replicate 10 (none, false)

/-- Distinct proxy endpoint names. -/
def proxyName (n : Nat) : Chars := ['p', Char.ofNat (65 + n)]

/-- 51 failed proxies listed in insertion order `p0, p1, …, p50`. -/
def proxyInsertions : List Chars := (List.range 51).map proxyName

end LinkExtractor

namespace LinkExtractor

/-! ## General list lemmas -/

theorem takeWhile_append_all {α} {p : α → Bool} {l₁ : List α} (l₂ : List α)
    (h : ∀ a ∈ l₁, p a = true) : (l₁ ++ l₂).takeWhile p = l₁ ++ l₂.takeWhile p := by
  induction l₁ with
  | nil => simp
  | cons a t ih =>
    have ha := h a (List.mem_cons_self a t)
    simp [List.takeWhile_cons, ha, ih (fun x hx => h x (List.mem_cons_of_mem a hx))]

theorem dropWhile_append_all {α} {p : α → Bool} {l₁ : List α} (l₂ : List α)
    (h : ∀ a ∈ l₁, p a = true) : (l₁ ++ l₂).dropWhile p = l₂.dropWhile p := by
  induction l₁ with
  | nil => simp
  | cons a t ih =>
    have ha := h a (List.mem_cons_self a t)
    simp [List.dropWhile_cons, ha, ih (fun x hx => h x (List.mem_cons_of_mem a hx))]

theorem takeWhile_append_stop {α} {p : α → Bool} {l₁ : List α} (l₂ : List α)
    (h : l₁.dropWhile p ≠ []) : (l₁ ++ l₂).takeWhile p = l₁.takeWhile p := by
  induction l₁ with
  | nil => simp at h
  | cons a t ih =>
    by_cases hpa : p a = true
    · have ht : t.dropWhile p ≠ [] := by simpa [List.dropWhile_cons, hpa] using h
      simp [List.takeWhile_cons, hpa, ih ht]
    · simp [List.takeWhile_cons, hpa]

theorem dropWhile_append_stop {α} {p : α → Bool} {l₁ : List α} (l₂ : List α)
    (h : l₁.dropWhile p ≠ []) : (l₁ ++ l₂).dropWhile p = l₁.dropWhile p ++ l₂ := by
  induction l₁ with
  | nil => simp at h
  | cons a t ih =>
    by_cases hpa : p a = true
    · have ht : t.dropWhile p ≠ [] := by simpa [List.dropWhile_cons, hpa] using h
      simp [List.dropWhile_cons, hpa, ih ht]
    · simp [List.dropWhile_cons, hpa]

theorem takeWhile_all_self {α} {p : α → Bool} {l : List α}
    (h : ∀ a ∈ l, p a = true) : l.takeWhile p = l := by
  induction l with
  | nil => rfl
  | cons a t ih =>
    have ha := h a (List.mem_cons_self a t)
    simp [List.takeWhile_cons, ha, ih (fun x hx => h x (List.mem_cons_of_mem a hx))]

theorem dropWhile_all_nil {α} {p : α → Bool} {l : List α}
    (h : ∀ a ∈ l, p a = true) : l.dropWhile p = [] := by
  induction l with
  | nil => rfl
  | cons a t ih =>
    have ha := h a (List.mem_cons_self a t)
    simp [List.dropWhile_cons, ha, ih (fun x hx => h x (List.mem_cons_of_mem a hx))]

theorem dropWhile_none_self {α} {p : α → Bool} {l : List α}
    (h : ∀ a ∈ l, p a = false) : l.dropWhile p = l := by
  cases l with
  | nil => rfl
  | cons a t => simp [List.dropWhile_cons, h a (List.mem_cons_self a t)]

theorem all_of_dropWhile_nil {α} {p : α → Bool} {l : List α}
    (h : l.dropWhile p = []) : ∀ a ∈ l, p a = true := by
  induction l with
  | nil => intro a ha; cases ha
  | cons b t ih =>
    by_cases hpb : p b = true
    · intro a ha
      rcases List.mem_cons.mp ha with rfl | ha'
      · exact hpb
      · exact ih (by simpa [List.dropWhile_cons, hpb] using h) a ha'
    · simp [List.dropWhile_cons, hpb] at h

theorem dropWhile_head_false {α} {p : α → Bool} {l : List α} {a : α} {t : List α}
    (h : l.dropWhile p = a :: t) : p a = false := by
  induction l with
  | nil => cases h
  | cons b u ih =>
    by_cases hpb : p b = true
    · exact ih (by simpa [List.dropWhile_cons, hpb] using h)
    · rw [List.dropWhile_cons, if_neg (by simpa using hpb)] at h
      cases h
      simpa using hpb

theorem dropWhile_idem {α} {p : α → Bool} (l : List α) :
    (l.dropWhile p).dropWhile p = l.dropWhile p := by
  cases h : l.dropWhile p with
  | nil => rfl
  | cons a t => simp [List.dropWhile_cons, dropWhile_head_false h]

theorem mem_of_mem_takeWhile {α} {p : α → Bool} {l : List α} {a : α}
    (h : a ∈ l.takeWhile p) : a ∈ l := by
  induction l with
  | nil => cases h
  | cons b t ih =>
    by_cases hpb : p b = true
    · rw [List.takeWhile_cons, if_pos hpb] at h
      rcases List.mem_cons.mp h with rfl | h'
      · exact List.mem_cons_self _ _
      · exact List.mem_cons_of_mem _ (ih h')
    · rw [List.takeWhile_cons, if_neg (by simpa using hpb)] at h
      cases h

theorem mem_of_mem_dropWhile {α} {p : α → Bool} {l : List α} {a : α}
    (h : a ∈ l.dropWhile p) : a ∈ l := by
  induction l with
  | nil => cases h
  | cons b t ih =>
    by_cases hpb : p b = true
    · rw [List.dropWhile_cons, if_pos hpb] at h
      exact List.mem_cons_of_mem _ (ih h)
    · rw [List.dropWhile_cons, if_neg (by simpa using hpb)] at h
      exact h

theorem pred_of_mem_takeWhile {α} {p : α → Bool} {l : List α} {a : α}
    (h : a ∈ l.takeWhile p) : p a = true := by
  induction l with
  | nil => cases h
  | cons b t ih =>
    by_cases hpb : p b = true
    · rw [List.takeWhile_cons, if_pos hpb] at h
      rcases List.mem_cons.mp h with rfl | h'
      · exact hpb
      · exact ih h'
    · rw [List.takeWhile_cons, if_neg (by simpa using hpb)] at h
      cases h

theorem self_ne_append_singleton {α} (l : List α) (x : α) : l ≠ l ++ [x] := by
  intro h
  have := congrArg List.length h
  simp at this

theorem count_le_one_of_nodup {l : List Chars} (h : l.Nodup) (a : Chars) :
    l.count a ≤ 1 := by
  induction l with
  | nil => simp
  | cons b t ih =>
    rcases List.nodup_cons.mp h with ⟨hb, ht⟩
    by_cases hba : a = b
    · subst hba
      have hz : t.count a = 0 := List.count_eq_zero.mpr hb
      simp [List.count_cons, hz]
    · simp [List.count_cons, hba]
      exact ih ht

theorem foldl_inv {β : Type} (f : CrawlState → β → CrawlState) (P : CrawlState → Prop)
    (hf : ∀ st b, P st → P (f st b)) :
    ∀ (l : List β) (st : CrawlState), P st → P (l.foldl f st) := by
  intro l
  induction l with
  | nil => intro st h; exact h
  | cons b t ih => intro st h; exact ih (f st b) (hf st b h)

/-! ## Field-preservation lemmas for the crawl transitions -/

theorem saveLinkRealtime_queue (st : CrawlState) (l : Chars) :
    (saveLinkRealtime st l).queue = st.queue := by
  unfold saveLinkRealtime; split <;> rfl

theorem saveLinkRealtime_visited (st : CrawlState) (l : Chars) :
    (saveLinkRealtime st l).visited = st.visited := by
  unfold saveLinkRealtime; split <;> rfl

theorem saveLinkRealtime_found (st : CrawlState) (l : Chars) :
    (saveLinkRealtime st l).found = st.found := by
  unfold saveLinkRealtime; split <;> rfl

theorem saveLinkRealtime_fetched (st : CrawlState) (l : Chars) :
    (saveLinkRealtime st l).fetched = st.fetched := by
  unfold saveLinkRealtime; split <;> rfl

theorem processLink_visited (cfg : Config) (st : CrawlState) (l : Chars) :
    (processLink cfg st l).visited = st.visited := by
  unfold processLink
  split
  · split <;> simp [saveLinkRealtime_visited]
  · rfl

theorem processLink_fetched (cfg : Config) (st : CrawlState) (l : Chars) :
    (processLink cfg st l).fetched = st.fetched := by
  unfold processLink
  split
  · split <;> simp [saveLinkRealtime_fetched]
  · rfl

theorem foldl_processLink_visited (cfg : Config) (links : List Chars) :
    ∀ st : CrawlState, (links.foldl (processLink cfg) st).visited = st.visited := by
  induction links with
  | nil => intro st; rfl
  | cons l t ih => intro st; rw [List.foldl_cons, ih, processLink_visited]

theorem foldl_processLink_fetched (cfg : Config) (links : List Chars) :
    ∀ st : CrawlState, (links.foldl (processLink cfg) st).fetched = st.fetched := by
  induction links with
  | nil => intro st; rfl
  | cons l t ih => intro st; rw [List.foldl_cons, ih, processLink_fetched]

theorem saveLinksBatch_visited (st : CrawlState) :
    (saveLinksBatch st).visited = st.visited := rfl

theorem saveLinksBatch_fetched (st : CrawlState) :
    (saveLinksBatch st).fetched = st.fetched := rfl

/-! ## C1 — frontier admission in `process_url` -/

/-- C1 (counterexample): the claimed admission rule is violated.  With
`linkC1` already in `found_links` but satisfying every condition the claim
lists — collectible, in scope, crawlable, unvisited, not queued, frontier
far below capacity — `process_url`'s link loop does **not** push it onto
the frontier, so "pushed iff valid ∧ in-scope ∧ crawlable ∧ unvisited ∧
not-queued ∧ below-capacity, with no further conditions" is false. -/
theorem c1_push_guard_counterexample :
    ¬ ((processLink cfgPlain stateC1 linkC1).queue = stateC1.queue ++ [linkC1] ↔
        (isValidUrl linkC1 = true ∧ shouldFollowDomain cfgPlain linkC1 = true ∧
         shouldCrawlUrl cfgPlain stateC1.domainCount linkC1 = true ∧
         linkC1 ∉ stateC1.visited ∧ linkC1 ∉ stateC1.queue ∧
         stateC1.queue.length < 5000)) := by decide

/-- C1 (amended): a harvested link is pushed onto the frontier iff it is
**newly recorded into `found_links`** (not already collected, and the
`max_links` cap not yet reached) and in scope and crawlable and not in
`visited_urls` and not already in the frontier and the frontier holds fewer
than 5000 entries. -/
theorem c1_push_guard (cfg : Config) (st : CrawlState) (l : Chars)
    (_hv : isValidUrl l = true) :
    (processLink cfg st l).queue = st.queue ++ [l] ↔
      (l ∉ st.found ∧ capOk cfg st = true ∧ shouldFollowDomain cfg l = true ∧
       shouldCrawlUrl cfg st.domainCount l = true ∧ l ∉ st.visited ∧
       l ∉ st.queue ∧ st.queue.length < 5000) := by
  unfold processLink
  by_cases h1 : l ∉ st.found ∧ capOk cfg st = true
  · rw [if_pos h1]
    by_cases h2 : shouldFollowDomain cfg l = true ∧
        shouldCrawlUrl cfg st.domainCount l = true ∧ l ∉ st.visited ∧
        l ∉ st.queue ∧ st.queue.length < 5000
    · rw [if_pos h2]
      simp only [saveLinkRealtime_queue]
      constructor
      · intro _
        exact ⟨h1.1, h1.2, h2.1, h2.2.1, h2.2.2.1, h2.2.2.2.1, h2.2.2.2.2⟩
      · intro _; trivial
    · rw [if_neg h2]
      rw [saveLinkRealtime_queue]
      constructor
      · intro h; exact absurd h (self_ne_append_singleton st.queue l)
      · intro h; exact absurd ⟨h.2.2.1, h.2.2.2.1, h.2.2.2.2⟩ h2
  · rw [if_neg h1]
    constructor
    · intro h; exact absurd h (self_ne_append_singleton st.queue l)
    · intro h; exact absurd ⟨h.1, h.2.1⟩ h1

/-- C1 (witness): on an empty fresh state the amended rule does push the
link. -/
theorem c1_push_guard_witness :
    (processLink cfgPlain (initState (str "x.test")) linkC1).queue =
      (initState (str "x.test")).queue ++ [linkC1] :=
  (c1_push_guard cfgPlain (initState (str "x.test")) linkC1 (by decide)).mpr (by decide)

/-! ## C2 — the seed-page scenario -/

/-- C2 (counterexample): the claimed ResultSet contains the seed
`https://a.test`, but `process_url` adds only harvested links to
`found_links` — the processed URL itself is never recorded — so after the
cycle the seed is not in the result set. -/
theorem c2_scenario_counterexample :
    (str "https://a.test") ∉ afterScenario.found := by decide

/-- C2 (amended): with seed `https://a.test`, scope `a.test`, and the page
yielding `[/b, https://a.test/b, https://c.test/x]`, after the cycle
`found_links = {https://a.test/b, https://c.test/x}` (the seed itself is
not recorded) and the frontier contains exactly `https://a.test/b`: the
external-host link is recorded but not enqueued. -/
theorem c2_scenario :
    afterScenario.found = [str "https://c.test/x", str "https://a.test/b"] ∧
    afterScenario.queue = [str "https://a.test/b"] ∧
    afterScenario.ledger = [str "https://a.test/b", str "https://c.test/x"] := by decide

/-! ## C3 — at-most-once fetch -/

set_option maxHeartbeats 1000000 in
theorem claimFetchStep_fetchInv (st : CrawlState) (url : Chars)
    (h : FetchInv st) : FetchInv (claimFetchStep st url) := by
  unfold claimFetchStep
  split
  · exact h
  · split
    · exact h
    · rename_i hrun hvis
      rw [Bool.not_eq_false] at hrun
      refine ⟨?_, ?_⟩
      · rw [List.nodup_append]
        refine ⟨h.1, List.nodup_singleton _, ?_⟩
        intro x hx hx'
        rcases List.mem_singleton.mp hx' with rfl
        exact hvis (h.2 _ hx)
      · intro x hx
        rcases List.mem_append.mp hx with hx' | hx'
        · exact List.mem_cons_of_mem _ (h.2 x hx')
        · rcases List.mem_singleton.mp hx' with rfl
          exact List.mem_cons_self _ _

theorem applyOp_fetchInv (cfg : Config) (st : CrawlState) (op : CrawlOp)
    (h : FetchInv st) : FetchInv (applyOp cfg st op) := by
  cases op with
  | claimFetch url => exact claimFetchStep_fetchInv st url h
  | ingest links =>
    show FetchInv (links.foldl (processLink cfg) st)
    unfold FetchInv
    rw [foldl_processLink_fetched, foldl_processLink_visited]
    exact h
  | batchSave =>
    show FetchInv (saveLinksBatch st)
    unfold FetchInv
    rw [saveLinksBatch_fetched, saveLinksBatch_visited]
    exact h

/-- C3 (confirmed): over every interleaving of the lock-atomic worker
steps — claim-and-fetch sections, link-admission sections with arbitrary
harvested links, and batch saves — each URL appears at most once in the
fetch log: `process_url` checks and inserts into `visited_urls` atomically
under the shared lock before invoking the page fetcher, and `visited_urls`
never shrinks, so no URL is fetched twice in a run. -/
theorem c3_fetch_at_most_once (cfg : Config) (domain : Chars)
    (ops : List CrawlOp) (u : Chars) :
    ((ops.foldl (applyOp cfg) (initState domain)).fetched).count u ≤ 1 := by
  have hinv : FetchInv (ops.foldl (applyOp cfg) (initState domain)) := by
    refine foldl_inv (applyOp cfg) FetchInv
      (fun st op h => applyOp_fetchInv cfg st op h) ops (initState domain) ?_
    exact ⟨List.nodup_nil, by intro x hx; cases hx⟩
  exact count_le_one_of_nodup hinv.1 u

/-! ## C4 — the ledger never holds a URL twice -/

theorem saveLinkRealtime_sinkInv (st : CrawlState) (l : Chars)
    (h : SinkInv st) : SinkInv (saveLinkRealtime st l) := by
  unfold saveLinkRealtime
  split
  · exact h
  · rename_i hsaved
    refine ⟨?_, ?_, h.2.2⟩
    · rw [List.nodup_append]
      refine ⟨h.1, List.nodup_singleton _, ?_⟩
      intro x hx hx'
      rcases List.mem_singleton.mp hx' with rfl
      exact hsaved (h.2.1 _ hx)
    · intro x hx
      rcases List.mem_append.mp hx with hx' | hx'
      · exact List.mem_cons_of_mem _ (h.2.1 x hx')
      · rcases List.mem_singleton.mp hx' with rfl
        exact List.mem_cons_self _ _

theorem processLink_sinkInv (cfg : Config) (st : CrawlState) (l : Chars)
    (h : SinkInv st) : SinkInv (processLink cfg st l) := by
  unfold processLink
  by_cases h1 : l ∉ st.found ∧ capOk cfg st = true
  · rw [if_pos h1]
    have hst' : SinkInv { st with found := l :: st.found } :=
      ⟨h.1, h.2.1, List.nodup_cons.mpr ⟨h1.1, h.2.2⟩⟩
    have hs := saveLinkRealtime_sinkInv _ l hst'
    split
    · exact ⟨hs.1, hs.2.1, hs.2.2⟩
    · exact hs
  · rw [if_neg h1]; exact h

theorem saveLinksBatch_sinkInv (st : CrawlState) (h : SinkInv st) :
    SinkInv (saveLinksBatch st) := by
  unfold saveLinksBatch
  set f : Chars → Bool := fun l => decide (l ∉ st.saved) with hf
  have hperm := List.perm_insertionSort (fun a b => lexLe a b = true) (st.found.filter f)
  have husMem : ∀ x ∈ List.insertionSort (fun a b => lexLe a b = true) (st.found.filter f),
      x ∈ st.found ∧ x ∉ st.saved := by
    intro x hx
    have hx' := hperm.mem_iff.mp hx
    have := List.mem_filter.mp hx'
    exact ⟨this.1, by simpa [hf] using this.2⟩
  have husNodup : (List.insertionSort (fun a b => lexLe a b = true) (st.found.filter f)).Nodup :=
    hperm.nodup_iff.mpr (h.2.2.filter f)
  refine ⟨?_, ?_, h.2.2⟩
  · rw [List.nodup_append]
    refine ⟨h.1, husNodup, ?_⟩
    intro x hx hx'
    exact (husMem x hx').2 (h.2.1 x hx)
  · intro x hx
    rcases List.mem_append.mp hx with hx' | hx'
    · exact List.mem_append.mpr (Or.inl (h.2.1 x hx'))
    · exact List.mem_append.mpr (Or.inr hx')

theorem applyOp_sinkInv (cfg : Config) (st : CrawlState) (op : CrawlOp)
    (h : SinkInv st) : SinkInv (applyOp cfg st op) := by
  cases op with
  | claimFetch url =>
    show SinkInv (claimFetchStep st url)
    unfold claimFetchStep
    split
    · exact h
    · split
      · exact h
      · exact ⟨h.1, h.2.1, h.2.2⟩
  | ingest links =>
    exact foldl_inv (processLink cfg) SinkInv
      (fun s l hs => processLink_sinkInv cfg s l hs) links st h
  | batchSave => exact saveLinksBatch_sinkInv st h

/-- C4 (confirmed): over every interleaving of the lock-atomic worker and
saver steps, the output ledger never contains the same URL twice — both the
real-time save and the batch save check `saved_links` under the file lock
before appending, so each distinct URL is written exactly once. -/
theorem c4_ledger_no_dup (cfg : Config) (domain : Chars) (ops : List CrawlOp) :
    ((ops.foldl (applyOp cfg) (initState domain)).ledger).Nodup := by
  have hinv : SinkInv (ops.foldl (applyOp cfg) (initState domain)) := by
    refine foldl_inv (applyOp cfg) SinkInv
      (fun st op h => applyOp_sinkInv cfg st op h) ops (initState domain) ?_
    exact ⟨List.nodup_nil, (by intro x hx; cases hx), List.nodup_nil⟩
  exact hinv.1

/-! ## C7 — `max_links` cap enforcement and loop stop -/

theorem processLink_found_le (cfg : Config) {K : Nat} (hK : cfg.maxLinks = some K)
    (st : CrawlState) (l : Chars) (h : st.found.length ≤ K) :
    (processLink cfg st l).found.length ≤ K := by
  unfold processLink
  by_cases h1 : l ∉ st.found ∧ capOk cfg st = true
  · rw [if_pos h1]
    have hlt : st.found.length < K := by
      have h2 := h1.2
      unfold capOk at h2
      rw [hK] at h2
      simpa using h2
    split <;> (rw [saveLinkRealtime_found]; simp only [List.length_cons]; omega)
  · rw [if_neg h1]; exact h

theorem processLink_found_mono (cfg : Config) (st : CrawlState) (l : Chars) :
    st.found.length ≤ (processLink cfg st l).found.length := by
  unfold processLink
  by_cases h1 : l ∉ st.found ∧ capOk cfg st = true
  · rw [if_pos h1]
    split <;> (rw [saveLinkRealtime_found]; simp only [List.length_cons]; omega)
  · rw [if_neg h1]

theorem foldl_processLink_found_mono (cfg : Config) (links : List Chars) :
    ∀ st : CrawlState, st.found.length ≤ ((links.foldl (processLink cfg) st).found).length := by
  induction links with
  | nil => intro st; exact Nat.le_refl _
  | cons l t ih =>
    intro st
    exact Nat.le_trans (processLink_found_mono cfg st l) (ih (processLink cfg st l))

theorem processUrl_found_le (pages : Chars → List Chars) (cfg : Config) {K : Nat}
    (hK : cfg.maxLinks = some K) (st : CrawlState) (url : Chars)
    (h : st.found.length ≤ K) : (processUrl pages cfg st url).found.length ≤ K := by
  unfold processUrl
  split
  · exact h
  · split
    · exact h
    · exact foldl_inv (processLink cfg) (fun s => s.found.length ≤ K)
        (fun s l hs => processLink_found_le cfg hK s l hs) _ _ h

theorem processUrl_found_mono (pages : Chars → List Chars) (cfg : Config)
    (st : CrawlState) (url : Chars) :
    st.found.length ≤ (processUrl pages cfg st url).found.length := by
  unfold processUrl
  split
  · exact Nat.le_refl _
  · split
    · exact Nat.le_refl _
    · exact foldl_processLink_found_mono cfg (harvest pages (normalizeUrl url))
        { st with
          visited := normalizeUrl url :: st.visited,
          fetched := st.fetched ++ [normalizeUrl url],
          domainCount :=
            bumpDomain st.domainCount (lowerStr (urlparseM [] (normalizeUrl url)).netloc) }

theorem loopIter_found_le (pages : Chars → List Chars) (cfg : Config) {K : Nat}
    (hK : cfg.maxLinks = some K) (st : CrawlState) (h : st.found.length ≤ K) :
    (loopIter pages cfg st).found.length ≤ K := by
  unfold loopIter
  exact foldl_inv (processUrl pages cfg) (fun s => s.found.length ≤ K)
    (fun s u hs => processUrl_found_le pages cfg hK s u hs) _ _ h

theorem loopIter_found_mono (pages : Chars → List Chars) (cfg : Config) (st : CrawlState) :
    st.found.length ≤ (loopIter pages cfg st).found.length := by
  unfold loopIter
  have : ∀ (batch : List Chars) (s : CrawlState),
      s.found.length ≤ ((batch.foldl (processUrl pages cfg) s).found).length := by
    intro batch
    induction batch with
    | nil => intro s; exact Nat.le_refl _
    | cons u t ih =>
      intro s
      exact Nat.le_trans (processUrl_found_mono pages cfg s u) (ih (processUrl pages cfg s u))
  exact this (st.queue.take cfg.threads) { st with queue := st.queue.drop cfg.threads }

theorem runLoop_found_le (pages : Chars → List Chars) (cfg : Config) {K : Nat}
    (hK : cfg.maxLinks = some K) :
    ∀ (n : Nat) (st : CrawlState), st.found.length ≤ K →
      (runLoop pages cfg n st).found.length ≤ K := by
  intro n
  induction n with
  | zero => intro st h; exact h
  | succ m ih =>
    intro st h
    unfold runLoop
    split
    · exact h
    · split
      · exact loopIter_found_le pages cfg hK st h
      · exact ih _ (loopIter_found_le pages cfg hK st h)

theorem capReached_loopIter (pages : Chars → List Chars) (cfg : Config) (st : CrawlState)
    (h : capReached cfg st = true) : capReached cfg (loopIter pages cfg st) = true := by
  unfold capReached at h ⊢
  cases hm : cfg.maxLinks with
  | none => rw [hm] at h; cases h
  | some m =>
    rw [hm] at h
    have := loopIter_found_mono pages cfg st
    simp only [decide_eq_true_eq] at h ⊢
    omega

/-- C7 (confirmed): with `max_links = K` configured, `found_links` never
grows beyond `K` — every insertion is guarded by `len(found_links) < K`
under the shared lock — both along arbitrary interleavings of the atomic
worker steps and along the orchestration loop; and once `|found_links| ≥ K`
the loop body runs at most once more before the `max_links` check stops the
loop. -/
theorem c7_max_links (cfg : Config) (K : Nat) (hK : cfg.maxLinks = some K)
    (pages : Chars → List Chars) (domain : Chars) :
    (∀ ops : List CrawlOp,
        ((ops.foldl (applyOp cfg) (initState domain)).found).length ≤ K) ∧
    (∀ n : Nat, ((runLoop pages cfg n (initState domain)).found).length ≤ K) ∧
    (∀ (n : Nat) (st : CrawlState), capReached cfg st = true →
        runLoop pages cfg (n + 1) st = st ∨
        runLoop pages cfg (n + 1) st = loopIter pages cfg st) := by
  refine ⟨?_, ?_, ?_⟩
  · intro ops
    refine foldl_inv (applyOp cfg) (fun s => s.found.length ≤ K) ?_ ops (initState domain)
      (by simp [initState])
    intro st op h
    cases op with
    | claimFetch url =>
      show (claimFetchStep st url).found.length ≤ K
      unfold claimFetchStep
      split
      · exact h
      · split
        · exact h
        · exact h
    | ingest links =>
      exact foldl_inv (processLink cfg) (fun s => s.found.length ≤ K)
        (fun s l hs => processLink_found_le cfg hK s l hs) links st h
    | batchSave => exact h
  · intro n
    exact runLoop_found_le pages cfg hK n (initState domain) (by simp [initState])
  · intro n st h
    unfold runLoop
    split
    · exact Or.inl rfl
    · rw [if_pos (capReached_loopIter pages cfg st h)]
      exact Or.inr rfl

/-- C7 (witness): with `max_links = 2`, the cap bound holds after an ingest
step, and a state that has reached the cap stops the loop after at most one
more iteration. -/
theorem c7_max_links_witness :
    (([CrawlOp.ingest [linkC1]].foldl (applyOp cfgCap) (initState (str "a.test"))).found).length ≤ 2 ∧
    (runLoop (fun _ => []) cfgCap 1 stateCapFull = stateCapFull ∨
      runLoop (fun _ => []) cfgCap 1 stateCapFull = loopIter (fun _ => []) cfgCap stateCapFull) := by
  constructor
  · exact (c7_max_links cfgCap 2 rfl (fun _ => []) (str "a.test")).1 [CrawlOp.ingest [linkC1]]
  · exact (c7_max_links cfgCap 2 rfl (fun _ => []) (str "a.test")).2.2 0 stateCapFull (by decide)

/-! ## C8 — proxy exhaustion skips the fetch -/

/-- C8 (counterexample): when proxying is enabled and all 10 acquisition
attempts fail, `_ensure_proxy_connection` returns false and
`extract_links_from_page` returns `[]` **without requesting the page**
(second component `false` = no fetch performed), contradicting the claim
that the fetch still proceeds without a proxy. -/
theorem c8_proxy_counterexample :
    ensureProxyConnection true none [] attemptsFail = false ∧
    extractLinksGate true none [] attemptsFail [str "https://a.test/b"] = ([], false) := by
  decide

/-- C8 (amended): when proxying is enabled and `_ensure_proxy_connection`
returns false, `extract_links_from_page` skips the URL: it returns an empty
link list and performs no page request; proxy exhaustion is reported, not
fatal, and no exception escapes. -/
theorem c8_proxy_skip (current : Option Chars) (failed : List Chars)
    (attempts : List (Option Chars × Bool)) (pageLinks : List Chars)
    (h : ensureProxyConnection true current failed attempts = false) :
    extractLinksGate true current failed attempts pageLinks = ([], false) := by
  unfold extractLinksGate
  rw [if_pos ⟨rfl, h⟩]

/-- C8 (witness): the amended behaviour at the concrete all-attempts-fail
input. -/
theorem c8_proxy_skip_witness :
    extractLinksGate true none [] attemptsFail [str "https://a.test/b"] = ([], false) :=
  c8_proxy_skip none [] attemptsFail [str "https://a.test/b"] (by decide)

/-! ## C9 — failed-proxy trimming -/

/-- C9 (code bug): `_cleanup_failed_proxies` keeps
`set(list(failed_proxies)[-25:])` — the last 25 of the **set's iteration
order**, which CPython does not keep in insertion order.  With 51 proxies
inserted as `proxyInsertions` but iterated in reversed order, the retained
25 entries are exactly the 25 **oldest** insertions, and none of them is
among the 25 most recently added — contradicting the claim (and the
source's own comment "Keep only the most recent 25 failed proxies"). -/
theorem c9_cleanup_eval :
    cleanupFailedProxies proxyInsertions.reverse = (proxyInsertions.take 25).reverse ∧
    ((proxyInsertions.take 25).reverse.all
      (fun x => decide (x ∉ proxyInsertions.drop 26))) = true := by decide

/-! ## C10 — `www.` stripping in the ignore check -/

theorem hasPre_self_append (p r : Chars) : hasPre p (p ++ r) = true := by
  induction p with
  | nil => rfl
  | cons a t ih => simp [hasPre, ih]

/-- C10 (confirmed): for any URL whose lowercased host is `www.X`, the
ignored-domain check strips the `www.` prefix before matching, so the URL
is ignored whenever `X` equals an ignore-list entry or ends in `.entry`. -/
theorem c10_www_ignored (igs : List Chars) (url x : Chars)
    (hd : lowerStr (urlparseM [] url).netloc = str "www." ++ x)
    (hm : x ∈ igs ∨ ∃ e ∈ igs, List.isSuffixOf ('.' :: e) x = true) :
    isDomainIgnored igs url = true := by
  have hne : igs ≠ [] := by
    rcases hm with h | ⟨e, he, _⟩
    · exact List.ne_nil_of_mem h
    · exact List.ne_nil_of_mem he
  have hstrip : wwwStripped (lowerStr (urlparseM [] url).netloc) = x := by
    rw [wwwStripped, hd, if_pos (hasPre_self_append (str "www.") x)]
    show (('w' :: 'w' :: 'w' :: '.' :: []) ++ x).drop 4 = x
    simp
  unfold isDomainIgnored
  rw [if_neg hne]
  rw [List.any_eq_true]
  rcases hm with h | ⟨e, he, hs⟩
  · exact ⟨x, h, by rw [hstrip]; simp⟩
  · exact ⟨e, he, by rw [hstrip]; simp [hs]⟩

/-- C10 (witness): `http://www.ads.test/y` is ignored when the ignore list
holds `ads.test`. -/
theorem c10_www_ignored_witness :
    isDomainIgnored [str "ads.test"] (str "http://www.ads.test/y") = true :=
  c10_www_ignored [str "ads.test"] (str "http://www.ads.test/y") (str "ads.test")
    (by decide) (Or.inl (by decide))

/-! ## Character-class lemmas -/

theorem char_ofNat_toNat {n : Nat} (h : n < 55296) : (Char.ofNat n).toNat = n := by
  unfold Char.ofNat
  rw [dif_pos (Or.inl h)]
  rfl

theorem upperAlpha_iff (c : Char) :
    upperAlpha c = true ↔ 65 ≤ c.toNat ∧ c.toNat ≤ 90 := by
  simp [upperAlpha]

theorem lowerChar_toNat_of_upper {c : Char} (h : upperAlpha c = true) :
    (lowerChar c).toNat = c.toNat + 32 := by
  unfold lowerChar
  rw [if_pos h]
  have := (upperAlpha_iff c).mp h
  exact char_ofNat_toNat (by omega)

theorem lowerChar_of_not_upper {c : Char} (h : ¬ upperAlpha c = true) :
    lowerChar c = c := by
  unfold lowerChar
  rw [if_neg h]

theorem upperAlpha_lowerChar (c : Char) : upperAlpha (lowerChar c) = false := by
  by_cases h : upperAlpha c = true
  · rw [Bool.eq_false_iff]
    intro hcon
    have h1 := (upperAlpha_iff _).mp hcon
    rw [lowerChar_toNat_of_upper h] at h1
    have h2 := (upperAlpha_iff c).mp h
    omega
  · rw [lowerChar_of_not_upper h]
    exact Bool.eq_false_iff.mpr h

theorem lowerChar_idem (c : Char) : lowerChar (lowerChar c) = lowerChar c :=
  lowerChar_of_not_upper (by rw [upperAlpha_lowerChar]; exact Bool.false_ne_true)

theorem lowerStr_idem (l : Chars) : lowerStr (lowerStr l) = lowerStr l := by
  induction l with
  | nil => rfl
  | cons a t ih =>
    show lowerChar (lowerChar a) :: lowerStr (lowerStr t) = lowerChar a :: lowerStr t
    rw [lowerChar_idem, ih]

theorem asciiAlpha_iff (c : Char) :
    asciiAlpha c = true ↔ (65 ≤ c.toNat ∧ c.toNat ≤ 90) ∨ (97 ≤ c.toNat ∧ c.toNat ≤ 122) := by
  simp [asciiAlpha, upperAlpha, lowerAlpha]

theorem asciiAlpha_lowerChar {c : Char} (h : asciiAlpha c = true) :
    asciiAlpha (lowerChar c) = true := by
  by_cases hu : upperAlpha c = true
  · have h1 := (upperAlpha_iff c).mp hu
    rw [asciiAlpha_iff, lowerChar_toNat_of_upper hu]
    omega
  · rw [lowerChar_of_not_upper hu]
    exact h

theorem schemeChar_iff (c : Char) :
    schemeChar c = true ↔
      asciiAlpha c = true ∨ asciiDigit c = true ∨ c = '+' ∨ c = '-' ∨ c = '.' := by
  simp [schemeChar]
  tauto

theorem schemeChar_lowerChar {c : Char} (h : schemeChar c = true) :
    schemeChar (lowerChar c) = true := by
  by_cases hu : upperAlpha c = true
  · rw [schemeChar_iff]
    exact Or.inl (asciiAlpha_lowerChar (by rw [asciiAlpha]; rw [hu]; rfl))
  · rw [lowerChar_of_not_upper hu]
    exact h

theorem schemeChar_facts {c : Char} (h : schemeChar c = true) :
    ¬ c = ':' ∧ ¬ c = '/' ∧ ¬ c = '?' ∧ ¬ c = '#' ∧ ctlChar c = false := by
  refine ⟨?_, ?_, ?_, ?_, ?_⟩
  · rintro rfl; exact absurd h (by decide)
  · rintro rfl; exact absurd h (by decide)
  · rintro rfl; exact absurd h (by decide)
  · rintro rfl; exact absurd h (by decide)
  · rw [Bool.eq_false_iff]
    intro hc
    have : (c = '\t' ∨ c = '\r') ∨ c = '\n' := by
      simpa [ctlChar] using hc
    rcases this with (rfl | rfl) | rfl <;> exact absurd h (by decide)

theorem keepNetloc_facts {c : Char} (h : keepNetloc c = true) :
    ¬ c = '/' ∧ ¬ c = '?' ∧ ¬ c = '#' := by
  refine ⟨?_, ?_, ?_⟩ <;> (rintro rfl; exact absurd h (by decide))

theorem validSchemeStr_all {s : Chars} (h : validSchemeStr s = true) :
    ∀ c ∈ s, schemeChar c = true := by
  cases s with
  | nil => intro c hc; cases hc
  | cons a t =>
    have h2 := (Bool.and_eq_true _ _).mp h
    exact fun c hc => (List.all_eq_true.mp h2.2) c hc

theorem validSchemeStr_lowerStr {s : Chars} (h : validSchemeStr s = true) :
    validSchemeStr (lowerStr s) = true := by
  cases s with
  | nil => cases h
  | cons a t =>
    have h2 := (Bool.and_eq_true _ _).mp h
    show validSchemeStr (lowerChar a :: lowerStr t) = true
    unfold validSchemeStr
    rw [Bool.and_eq_true]
    refine ⟨asciiAlpha_lowerChar h2.1, ?_⟩
    rw [List.all_eq_true]
    intro c hc
    rcases List.mem_cons.mp hc with rfl | hc'
    · exact schemeChar_lowerChar ((List.all_eq_true.mp h2.2) a (List.mem_cons_self a t))
    · rcases List.mem_map.mp hc' with ⟨b, hb, rfl⟩
      exact schemeChar_lowerChar
        ((List.all_eq_true.mp h2.2) b (List.mem_cons_of_mem a hb))

theorem validSchemeStr_colon {s : Chars} (h : validSchemeStr s = true) : ':' ∉ s := by
  intro hc
  exact (schemeChar_facts (validSchemeStr_all h _ hc)).1 rfl

/-! ## `splitAtFirst` lemmas -/

theorem notChar_self (a : Char) : notChar a a = false := by simp [notChar]

theorem notChar_of_ne {a c : Char} (h : ¬ c = a) : notChar a c = true := by
  simp [notChar, h]

theorem splitAtFirst_not_mem {a : Char} {l : Chars} (h : a ∉ l) :
    splitAtFirst a l = (l, none) := by
  have hall : ∀ c ∈ l, notChar a c = true := by
    intro c hc
    exact notChar_of_ne (by rintro rfl; exact h hc)
  unfold splitAtFirst
  rw [dropWhile_all_nil hall]

theorem splitAtFirst_append {a : Char} {l₁ : Chars} (l₂ : Chars) (h : a ∉ l₁) :
    splitAtFirst a (l₁ ++ a :: l₂) = (l₁, some l₂) := by
  have hall : ∀ c ∈ l₁, notChar a c = true := by
    intro c hc
    exact notChar_of_ne (by rintro rfl; exact h hc)
  unfold splitAtFirst
  rw [dropWhile_append_all _ hall, takeWhile_append_all _ hall]
  rw [List.dropWhile_cons, List.takeWhile_cons, if_neg (by simp [notChar]),
    if_neg (by simp [notChar]), List.append_nil]

theorem splitAtFirst_fst_sub {a : Char} {l : Chars} :
    ∀ c ∈ (splitAtFirst a l).1, c ∈ l := by
  unfold splitAtFirst
  cases hdw : l.dropWhile (notChar a) with
  | nil => intro c hc; exact hc
  | cons x rest => intro c hc; exact mem_of_mem_takeWhile hc

theorem splitAtFirst_fst_ne {a : Char} {l : Chars} :
    ∀ c ∈ (splitAtFirst a l).1, ¬ c = a := by
  unfold splitAtFirst
  cases hdw : l.dropWhile (notChar a) with
  | nil =>
    intro c hc
    have := all_of_dropWhile_nil hdw c hc
    simpa [notChar] using this
  | cons x rest =>
    intro c hc
    have := pred_of_mem_takeWhile hc
    simpa [notChar] using this

theorem splitAtFirst_sndD_sub {a : Char} {l : Chars} :
    ∀ c ∈ (splitAtFirst a l).2.getD [], c ∈ l := by
  unfold splitAtFirst
  cases hdw : l.dropWhile (notChar a) with
  | nil => intro c hc; cases hc
  | cons x rest =>
    intro c hc
    have : c ∈ x :: rest := List.mem_cons_of_mem x hc
    rw [← hdw] at this
    exact mem_of_mem_dropWhile this

/-! ## `removeCtl` lemmas -/

theorem removeCtl_append (a b : Chars) :
    removeCtl (a ++ b) = removeCtl a ++ removeCtl b := by
  unfold removeCtl
  exact List.filter_append _ _

theorem removeCtl_eq_self {l : Chars} (h : ∀ c ∈ l, ctlChar c = false) :
    removeCtl l = l := by
  unfold removeCtl
  rw [List.filter_eq_self]
  intro c hc
  rw [h c hc]
  rfl

theorem mem_removeCtl {c : Char} {l : Chars} (h : c ∈ removeCtl l) :
    c ∈ l ∧ ctlChar c = false := by
  unfold removeCtl at h
  have h2 := List.mem_filter.mp h
  exact ⟨h2.1, by simpa using h2.2⟩

theorem removeCtl_hash_cons (f : Chars) :
    removeCtl ('#' :: f) = '#' :: removeCtl f := by
  unfold removeCtl
  rw [List.filter_cons, if_pos (by decide)]

/-! ## `rstripSlashes` lemmas -/

theorem rstrip_idem (l : Chars) : rstripSlashes (rstripSlashes l) = rstripSlashes l := by
  unfold rstripSlashes
  rw [List.reverse_reverse, dropWhile_idem]

theorem rstrip_nil_all {l : Chars} (h : rstripSlashes l = []) : ∀ c ∈ l, c = '/' := by
  unfold rstripSlashes at h
  rw [List.reverse_eq_nil_iff] at h
  intro c hc
  have := all_of_dropWhile_nil h c (List.mem_reverse.mpr hc)
  simpa using this

theorem rstrip_ne_nil {l : Chars} (h : ∃ c ∈ l, ¬ c = '/') : rstripSlashes l ≠ [] := by
  intro hnil
  rcases h with ⟨c, hc, hne⟩
  exact hne (rstrip_nil_all hnil c hc)

theorem rstrip_append_keep {b : Chars} (a : Chars) (h : rstripSlashes b ≠ []) :
    rstripSlashes (a ++ b) = a ++ rstripSlashes b := by
  unfold rstripSlashes at h ⊢
  rw [List.reverse_append]
  rw [dropWhile_append_stop _ (by
    intro hnil
    rw [hnil] at h
    exact h rfl)]
  rw [List.reverse_append, List.reverse_reverse]

theorem rstrip_append_slash {b : Chars} (a : Chars) (h : ∀ c ∈ b, c = '/') :
    rstripSlashes (a ++ b) = rstripSlashes a := by
  unfold rstripSlashes
  rw [List.reverse_append]
  rw [dropWhile_append_all _ (by
    intro c hc
    simp [h c (List.mem_reverse.mp hc)])]

theorem rstrip_no_slash {l : Chars} (h : ∀ c ∈ l, ¬ c = '/') : rstripSlashes l = l := by
  unfold rstripSlashes
  rw [dropWhile_none_self (by
    intro c hc
    simp [h c (List.mem_reverse.mp hc)])]
  exact List.reverse_reverse l

theorem rstrip_qmark_cons {q : Chars} (h : ∃ c ∈ q, ¬ c = '/') :
    rstripSlashes ('?' :: q) = '?' :: rstripSlashes q := by
  have := rstrip_append_keep ['?'] (rstrip_ne_nil h)
  simpa using this

theorem mem_rstrip {c : Char} {l : Chars} (h : c ∈ rstripSlashes l) : c ∈ l := by
  unfold rstripSlashes at h
  have h2 := List.mem_reverse.mp h
  exact List.mem_reverse.mp (mem_of_mem_dropWhile h2)

theorem rstrip_last_ne {l : Chars} {c : Char}
    (h : (rstripSlashes l).getLast? = some c) : ¬ c = '/' := by
  unfold rstripSlashes at h
  rw [List.getLast?_reverse] at h
  cases hdw : l.reverse.dropWhile (fun c => decide (c = '/')) with
  | nil => rw [hdw] at h; cases h
  | cons x rest =>
    rw [hdw] at h
    have hx : x = c := by simpa using h
    subst hx
    simpa using dropWhile_head_false hdw

/-! ## Scheme- and netloc-split lemmas -/

/-- Case analysis for `splitAtFirst`: either the character is absent, or
the list splits as `pre ++ a :: rest` with `a ∉ pre`. -/
theorem splitAtFirst_eq (a : Char) (l : Chars) :
    (splitAtFirst a l = (l, none) ∧ a ∉ l) ∨
      ∃ pre rest, splitAtFirst a l = (pre, some rest) ∧ l = pre ++ a :: rest ∧ a ∉ pre := by
  unfold splitAtFirst
  cases hdw : l.dropWhile (notChar a) with
  | nil =>
    left
    refine ⟨rfl, ?_⟩
    intro hm
    have := all_of_dropWhile_nil hdw a hm
    simp [notChar] at this
  | cons x rest =>
    right
    have hx : x = a := by
      have := dropWhile_head_false hdw
      simpa [notChar] using this
    refine ⟨l.takeWhile (notChar a), rest, rfl, ?_, ?_⟩
    · conv_lhs => rw [← List.takeWhile_append_dropWhile (p := notChar a) (l := l)]
      rw [hdw, hx]
    · intro hm
      have := pred_of_mem_takeWhile hm
      simp [notChar] at this

theorem splitSchemeCore_valid {s : Chars} (d rest : Chars)
    (hs : validSchemeStr s = true) :
    splitSchemeCore d (s ++ ':' :: rest) = (lowerStr s, rest) := by
  unfold splitSchemeCore
  rw [splitAtFirst_append rest (validSchemeStr_colon hs)]
  show (if validSchemeStr s = true then (lowerStr s, rest) else (d, s ++ ':' :: rest)) = _
  rw [if_pos hs]

theorem splitSchemeCore_snd_sub (d : Chars) {u : Chars} :
    ∀ c ∈ (splitSchemeCore d u).2, c ∈ u := by
  intro c hc
  unfold splitSchemeCore at hc
  rcases splitAtFirst_eq ':' u with ⟨heq, _⟩ | ⟨pre, rest, heq, hshape, _⟩
  · rw [heq] at hc
    exact hc
  · rw [heq] at hc
    dsimp only at hc
    by_cases hv : validSchemeStr pre = true
    · rw [if_pos hv] at hc
      rw [hshape]
      exact List.mem_append.mpr (Or.inr (List.mem_cons_of_mem _ hc))
    · rw [if_neg hv] at hc
      exact hc

theorem splitSchemeCore_fst_cases (d : Chars) (u : Chars) :
    (splitSchemeCore d u).1 = d ∨
      (validSchemeStr (splitSchemeCore d u).1 = true ∧
       lowerStr (splitSchemeCore d u).1 = (splitSchemeCore d u).1) := by
  unfold splitSchemeCore
  rcases splitAtFirst_eq ':' u with ⟨heq, _⟩ | ⟨pre, rest, heq, _, _⟩
  · rw [heq]
    exact Or.inl rfl
  · rw [heq]
    dsimp only
    by_cases hv : validSchemeStr pre = true
    · rw [if_pos hv]
      exact Or.inr ⟨validSchemeStr_lowerStr hv, lowerStr_idem _⟩
    · rw [if_neg hv]
      exact Or.inl rfl

theorem hasPre_cons_cons (t : Chars) : hasPre ['/', '/'] ('/' :: '/' :: t) = true := by
  simp [hasPre]

theorem splitNetlocCore_slashes (t : Chars) :
    splitNetlocCore ('/' :: '/' :: t) = (t.takeWhile keepNetloc, t.dropWhile keepNetloc) := by
  unfold splitNetlocCore
  rw [if_pos (hasPre_cons_cons t)]
  rfl

theorem splitNetlocCore_fst_keep {u : Chars} :
    ∀ c ∈ (splitNetlocCore u).1, keepNetloc c = true := by
  unfold splitNetlocCore
  split
  · intro c hc; exact pred_of_mem_takeWhile hc
  · intro c hc; cases hc

theorem splitNetlocCore_fst_sub {u : Chars} :
    ∀ c ∈ (splitNetlocCore u).1, c ∈ u := by
  unfold splitNetlocCore
  split
  · intro c hc
    exact List.mem_of_mem_drop (mem_of_mem_takeWhile hc)
  · intro c hc; cases hc

theorem splitNetlocCore_snd_sub {u : Chars} :
    ∀ c ∈ (splitNetlocCore u).2, c ∈ u := by
  unfold splitNetlocCore
  split
  · intro c hc
    exact List.mem_of_mem_drop (mem_of_mem_dropWhile hc)
  · intro c hc; exact hc

/-! ## Parsing the rebuilt URL -/

/-- `urlsplitCore` written out through its stages. -/
theorem urlsplitCore_eq (d u : Chars) :
    urlsplitCore d u =
      ⟨(splitSchemeCore d u).1,
       (splitNetlocCore (splitSchemeCore d u).2).1,
       (splitAtFirst '?'
         (splitAtFirst '#' (splitNetlocCore (splitSchemeCore d u).2).2).1).1,
       [],
       ((splitAtFirst '?'
         (splitAtFirst '#' (splitNetlocCore (splitSchemeCore d u).2).2).1).2).getD [],
       ((splitAtFirst '#' (splitNetlocCore (splitSchemeCore d u).2).2).2).getD []⟩ := rfl

theorem netloc_scan_append (p q : Chars) :
    (p ++ '?' :: q).takeWhile keepNetloc = p.takeWhile keepNetloc ∧
    (p ++ '?' :: q).dropWhile keepNetloc = p.dropWhile keepNetloc ++ '?' :: q := by
  by_cases hdp : p.dropWhile keepNetloc = []
  · have hall := all_of_dropWhile_nil hdp
    constructor
    · rw [takeWhile_append_all _ hall, List.takeWhile_cons, if_neg (by decide),
        List.append_nil, takeWhile_all_self hall]
    · rw [dropWhile_append_all _ hall, List.dropWhile_cons, if_neg (by decide), hdp]
      rfl
  · exact ⟨takeWhile_append_stop _ hdp, dropWhile_append_stop _ hdp⟩

/-- Parsing `scheme://netloc ++ path` when the pieces are well-formed: the
authority scan may eat an initial slash-free part of `path`, but scheme,
query and fragment come out as expected. -/
theorem urlsplitCore_build_nq (s n p : Chars)
    (hs : validSchemeStr s = true)
    (hn : ∀ c ∈ n, keepNetloc c = true)
    (hp : ∀ c ∈ p, ¬ c = '?' ∧ ¬ c = '#') :
    urlsplitCore [] (s ++ ':' :: '/' :: '/' :: (n ++ p)) =
      ⟨lowerStr s, n ++ p.takeWhile keepNetloc, p.dropWhile keepNetloc, [], [], []⟩ := by
  have hsplit : splitNetlocCore ('/' :: '/' :: (n ++ p)) =
      (n ++ p.takeWhile keepNetloc, p.dropWhile keepNetloc) := by
    rw [splitNetlocCore_slashes]
    rw [takeWhile_append_all _ hn, dropWhile_append_all _ hn]
  have hfrag : splitAtFirst '#' (p.dropWhile keepNetloc) = (p.dropWhile keepNetloc, none) :=
    splitAtFirst_not_mem (by
      intro hmem
      exact (hp '#' (mem_of_mem_dropWhile hmem)).2 rfl)
  have hquery : splitAtFirst '?' (p.dropWhile keepNetloc) = (p.dropWhile keepNetloc, none) :=
    splitAtFirst_not_mem (by
      intro hmem
      exact (hp '?' (mem_of_mem_dropWhile hmem)).1 rfl)
  rw [urlsplitCore_eq, splitSchemeCore_valid _ _ hs]
  simp only [hsplit, hfrag, hquery, Option.getD_none]

/-- Parsing `scheme://netloc ++ path ++ '?' ++ query` when the pieces are
well-formed. -/
theorem urlsplitCore_build_q (s n p q : Chars)
    (hs : validSchemeStr s = true)
    (hn : ∀ c ∈ n, keepNetloc c = true)
    (hp : ∀ c ∈ p, ¬ c = '?' ∧ ¬ c = '#')
    (hq : ∀ c ∈ q, ¬ c = '#') :
    urlsplitCore [] (s ++ ':' :: '/' :: '/' :: (n ++ (p ++ '?' :: q))) =
      ⟨lowerStr s, n ++ p.takeWhile keepNetloc, p.dropWhile keepNetloc, [], q, []⟩ := by
  have hscan := netloc_scan_append p q
  have hsplit : splitNetlocCore ('/' :: '/' :: (n ++ (p ++ '?' :: q))) =
      (n ++ p.takeWhile keepNetloc, p.dropWhile keepNetloc ++ '?' :: q) := by
    rw [splitNetlocCore_slashes]
    rw [takeWhile_append_all _ hn, dropWhile_append_all _ hn, hscan.1, hscan.2]
  have hfrag : splitAtFirst '#' (p.dropWhile keepNetloc ++ '?' :: q) =
      (p.dropWhile keepNetloc ++ '?' :: q, none) :=
    splitAtFirst_not_mem (by
      intro hmem
      rcases List.mem_append.mp hmem with hm | hm
      · exact (hp '#' (mem_of_mem_dropWhile hm)).2 rfl
      · rcases List.mem_cons.mp hm with heq | hm'
        · cases heq
        · exact (hq '#' hm') rfl)
  have hquery : splitAtFirst '?' (p.dropWhile keepNetloc ++ '?' :: q) =
      (p.dropWhile keepNetloc, some q) :=
    splitAtFirst_append q (by
      intro hmem
      exact (hp '?' (mem_of_mem_dropWhile hmem)).1 rfl)
  rw [urlsplitCore_eq, splitSchemeCore_valid _ _ hs]
  simp only [hsplit, hfrag, hquery, Option.getD_none, Option.getD_some]

/-! ## Fragment removal commutes with parsing -/

theorem splitSchemeCore_append_hash {u : Chars} (d f : Chars) (_hu : '#' ∉ u) :
    splitSchemeCore d (u ++ '#' :: f) =
      ((splitSchemeCore d u).1, (splitSchemeCore d u).2 ++ '#' :: f) := by
  unfold splitSchemeCore splitAtFirst
  cases hdw : u.dropWhile (notChar ':') with
  | nil =>
    have hall := all_of_dropWhile_nil hdw
    rw [dropWhile_append_all _ hall, takeWhile_append_all _ hall]
    rw [List.dropWhile_cons, List.takeWhile_cons,
      if_pos (by decide : notChar ':' '#' = true), if_pos (by decide : notChar ':' '#' = true)]
    cases hdf : f.dropWhile (notChar ':') with
    | nil => rfl
    | cons x rest =>
      dsimp only
      have hbad : ¬ validSchemeStr (u ++ '#' :: f.takeWhile (notChar ':')) = true := by
        intro hv
        exact (schemeChar_facts (validSchemeStr_all hv '#'
          (List.mem_append.mpr (Or.inr (List.mem_cons_self _ _))))).2.2.2.1 rfl
      rw [if_neg hbad]
  | cons x rest =>
    have hne : u.dropWhile (notChar ':') ≠ [] := by
      rw [hdw]; exact List.cons_ne_nil x rest
    rw [dropWhile_append_stop _ hne, takeWhile_append_stop _ hne, hdw]
    show (if validSchemeStr (u.takeWhile (notChar ':')) = true
        then (lowerStr (u.takeWhile (notChar ':')), rest ++ '#' :: f)
        else (d, u ++ '#' :: f)) =
      ((if validSchemeStr (u.takeWhile (notChar ':')) = true
        then (lowerStr (u.takeWhile (notChar ':')), rest)
        else (d, u)).1,
       (if validSchemeStr (u.takeWhile (notChar ':')) = true
        then (lowerStr (u.takeWhile (notChar ':')), rest)
        else (d, u)).2 ++ '#' :: f)
    by_cases hv : validSchemeStr (u.takeWhile (notChar ':')) = true
    · simp only [if_pos hv]
    · simp only [if_neg hv]

theorem hasPre_slashes_append (v f : Chars) :
    hasPre ['/', '/'] (v ++ '#' :: f) = hasPre ['/', '/'] v := by
  cases v with
  | nil => simp [hasPre]
  | cons a t =>
    cases t with
    | nil => simp [hasPre]
    | cons b t2 => simp [hasPre]

theorem splitNetlocCore_append_hash {v : Chars} (f : Chars) (hv : '#' ∉ v) :
    splitNetlocCore (v ++ '#' :: f) =
      ((splitNetlocCore v).1, (splitNetlocCore v).2 ++ '#' :: f) := by
  by_cases hpre : hasPre ['/', '/'] v = true
  · obtain ⟨t, rfl⟩ : ∃ t, v = '/' :: '/' :: t := by
      cases v with
      | nil => cases hpre
      | cons a t0 =>
        cases t0 with
        | nil => exact absurd hpre (by simp [hasPre])
        | cons b t =>
          have h2 : (decide ('/' = a) && (decide ('/' = b) && hasPre [] t)) = true := hpre
          rw [Bool.and_eq_true, Bool.and_eq_true] at h2
          obtain ⟨ha, hb, _⟩ := h2
          rw [decide_eq_true_eq] at ha hb
          exact ⟨t, by rw [← ha, ← hb]⟩
    show splitNetlocCore ('/' :: '/' :: (t ++ '#' :: f)) = _
    rw [splitNetlocCore_slashes, splitNetlocCore_slashes]
    by_cases hdt : t.dropWhile keepNetloc = []
    · have hall := all_of_dropWhile_nil hdt
      rw [takeWhile_append_all _ hall, dropWhile_append_all _ hall]
      rw [List.takeWhile_cons, List.dropWhile_cons,
        if_neg (by decide : ¬ keepNetloc '#' = true),
        if_neg (by decide : ¬ keepNetloc '#' = true),
        List.append_nil, takeWhile_all_self hall, hdt]
      rfl
    · rw [takeWhile_append_stop _ hdt, dropWhile_append_stop _ hdt]
  · have h1 : ¬ hasPre ['/', '/'] (v ++ '#' :: f) = true := by
      rw [hasPre_slashes_append]
      exact hpre
    rw [splitNetlocCore, if_neg h1, splitNetlocCore, if_neg hpre]

/-- The parse of `u ++ '#' ++ f` agrees with the parse of `u` on scheme,
netloc, path and query whenever `u` is fragment-free: `urlsplit` cuts the
fragment at the first `#`. -/
theorem urlparseM_append_hash {u : Chars} (f : Chars) (hu : '#' ∉ u) :
    (urlparseM [] (u ++ '#' :: f)).scheme = (urlparseM [] u).scheme ∧
    (urlparseM [] (u ++ '#' :: f)).netloc = (urlparseM [] u).netloc ∧
    (urlparseM [] (u ++ '#' :: f)).path = (urlparseM [] u).path ∧
    (urlparseM [] (u ++ '#' :: f)).query = (urlparseM [] u).query := by
  have hu' : '#' ∉ removeCtl u := fun hm => hu (mem_removeCtl hm).1
  have h1 := splitSchemeCore_append_hash ([] : Chars) (removeCtl f) hu'
  have hu2 : '#' ∉ (splitSchemeCore [] (removeCtl u)).2 := fun hm =>
    hu' (splitSchemeCore_snd_sub [] '#' hm)
  have h2 := splitNetlocCore_append_hash (removeCtl f) hu2
  have hu3 : '#' ∉ (splitNetlocCore (splitSchemeCore [] (removeCtl u)).2).2 := fun hm =>
    hu2 (splitNetlocCore_snd_sub '#' hm)
  have h3 : splitAtFirst '#'
      ((splitNetlocCore (splitSchemeCore [] (removeCtl u)).2).2 ++ '#' :: removeCtl f) =
      ((splitNetlocCore (splitSchemeCore [] (removeCtl u)).2).2, some (removeCtl f)) :=
    splitAtFirst_append _ hu3
  have h4 : splitAtFirst '#' (splitNetlocCore (splitSchemeCore [] (removeCtl u)).2).2 =
      ((splitNetlocCore (splitSchemeCore [] (removeCtl u)).2).2, none) :=
    splitAtFirst_not_mem hu3
  have hrc : removeCtl (u ++ '#' :: f) = removeCtl u ++ '#' :: removeCtl f := by
    rw [removeCtl_append, removeCtl_hash_cons]
  have hSch : (urlsplitCore [] (removeCtl (u ++ '#' :: f))).scheme =
      (urlsplitCore [] (removeCtl u)).scheme := by
    rw [hrc, urlsplitCore_eq, urlsplitCore_eq]
    simp only [h1]
  have hNet : (urlsplitCore [] (removeCtl (u ++ '#' :: f))).netloc =
      (urlsplitCore [] (removeCtl u)).netloc := by
    rw [hrc, urlsplitCore_eq, urlsplitCore_eq]
    simp only [h1, h2]
  have hPath : (urlsplitCore [] (removeCtl (u ++ '#' :: f))).path =
      (urlsplitCore [] (removeCtl u)).path := by
    rw [hrc, urlsplitCore_eq, urlsplitCore_eq]
    simp only [h1, h2, h3, h4]
  have hQ : (urlsplitCore [] (removeCtl (u ++ '#' :: f))).query =
      (urlsplitCore [] (removeCtl u)).query := by
    rw [hrc, urlsplitCore_eq, urlsplitCore_eq]
    simp only [h1, h2, h3, h4]
  unfold urlparseM
  by_cases hsemi : ';' ∈ (urlsplitCore [] (removeCtl u)).path
  · rw [if_pos (hPath ▸ hsemi), if_pos hsemi]
    exact ⟨hSch, hNet, by rw [hPath], hQ⟩
  · rw [if_neg (fun hin => hsemi (hPath ▸ hin)), if_neg hsemi]
    exact ⟨hSch, hNet, hPath, hQ⟩

/-! ## Purity of the parse components -/

theorem urlsplitCore_scheme_cases (v : Chars) :
    (urlsplitCore [] v).scheme = [] ∨
      (validSchemeStr (urlsplitCore [] v).scheme = true ∧
       lowerStr (urlsplitCore [] v).scheme = (urlsplitCore [] v).scheme) := by
  rw [urlsplitCore_eq]
  exact splitSchemeCore_fst_cases [] v

theorem urlsplitCore_netloc_facts (d : Chars) {v : Chars} :
    ∀ c ∈ (urlsplitCore d v).netloc, keepNetloc c = true ∧ c ∈ v := by
  rw [urlsplitCore_eq]
  intro c hc
  dsimp only at hc
  exact ⟨splitNetlocCore_fst_keep c hc,
    splitSchemeCore_snd_sub d c (splitNetlocCore_fst_sub c hc)⟩

theorem urlsplitCore_path_facts (d : Chars) {v : Chars} :
    ∀ c ∈ (urlsplitCore d v).path, ¬ c = '?' ∧ ¬ c = '#' ∧ c ∈ v := by
  rw [urlsplitCore_eq]
  intro c hc
  dsimp only at hc
  have hq := splitAtFirst_fst_ne c hc
  have h2 := splitAtFirst_fst_sub c hc
  have hh := splitAtFirst_fst_ne c h2
  have h3 := splitAtFirst_fst_sub c h2
  exact ⟨hq, hh, splitSchemeCore_snd_sub d c (splitNetlocCore_snd_sub c h3)⟩

theorem urlsplitCore_query_facts (d : Chars) {v : Chars} :
    ∀ c ∈ (urlsplitCore d v).query, ¬ c = '#' ∧ c ∈ v := by
  rw [urlsplitCore_eq]
  intro c hc
  dsimp only at hc
  have h2 := splitAtFirst_sndD_sub c hc
  have hh := splitAtFirst_fst_ne c h2
  have h3 := splitAtFirst_fst_sub c h2
  exact ⟨hh, splitSchemeCore_snd_sub d c (splitNetlocCore_snd_sub c h3)⟩

/-- With no `;` anywhere in the input the params split never fires. -/
theorem urlparseM_no_semi {u : Chars} (h : ';' ∉ u) :
    urlparseM [] u = urlsplitCore [] (removeCtl u) := by
  unfold urlparseM
  rw [if_neg (fun hin =>
    h (mem_removeCtl ((urlsplitCore_path_facts [] ';' hin).2.2)).1)]

/-! ## `urlparseM` on rebuilt URLs -/

theorem urlparseM_build_nq (s n p : Chars)
    (hs : validSchemeStr s = true)
    (hn : ∀ c ∈ n, keepNetloc c = true ∧ ctlChar c = false)
    (hp : ∀ c ∈ p, ¬ c = '?' ∧ ¬ c = '#' ∧ ¬ c = ';' ∧ ctlChar c = false) :
    urlparseM [] (s ++ ':' :: '/' :: '/' :: (n ++ p)) =
      ⟨lowerStr s, n ++ p.takeWhile keepNetloc, p.dropWhile keepNetloc, [], [], []⟩ := by
  have hctl : ∀ c ∈ s ++ ':' :: '/' :: '/' :: (n ++ p), ctlChar c = false := by
    intro c hc
    rcases List.mem_append.mp hc with hm | hm
    · exact (schemeChar_facts (validSchemeStr_all hs c hm)).2.2.2.2
    · rcases List.mem_cons.mp hm with rfl | hm
      · decide
      · rcases List.mem_cons.mp hm with rfl | hm
        · decide
        · rcases List.mem_cons.mp hm with rfl | hm
          · decide
          · rcases List.mem_append.mp hm with hm2 | hm2
            · exact (hn c hm2).2
            · exact (hp c hm2).2.2.2
  have hcore := urlsplitCore_build_nq s n p hs (fun c hc => (hn c hc).1)
    (fun c hc => ⟨(hp c hc).1, (hp c hc).2.1⟩)
  unfold urlparseM
  rw [removeCtl_eq_self hctl, hcore]
  rw [if_neg (fun hin => (hp ';' (mem_of_mem_dropWhile hin)).2.2.1 rfl)]

theorem urlparseM_build_q (s n p q : Chars)
    (hs : validSchemeStr s = true)
    (hn : ∀ c ∈ n, keepNetloc c = true ∧ ctlChar c = false)
    (hp : ∀ c ∈ p, ¬ c = '?' ∧ ¬ c = '#' ∧ ¬ c = ';' ∧ ctlChar c = false)
    (hq : ∀ c ∈ q, ¬ c = '#' ∧ ctlChar c = false) :
    urlparseM [] (s ++ ':' :: '/' :: '/' :: (n ++ (p ++ '?' :: q))) =
      ⟨lowerStr s, n ++ p.takeWhile keepNetloc, p.dropWhile keepNetloc, [], q, []⟩ := by
  have hctl : ∀ c ∈ s ++ ':' :: '/' :: '/' :: (n ++ (p ++ '?' :: q)), ctlChar c = false := by
    intro c hc
    rcases List.mem_append.mp hc with hm | hm
    · exact (schemeChar_facts (validSchemeStr_all hs c hm)).2.2.2.2
    · rcases List.mem_cons.mp hm with rfl | hm
      · decide
      · rcases List.mem_cons.mp hm with rfl | hm
        · decide
        · rcases List.mem_cons.mp hm with rfl | hm
          · decide
          · rcases List.mem_append.mp hm with hm2 | hm2
            · exact (hn c hm2).2
            · rcases List.mem_append.mp hm2 with hm3 | hm3
              · exact (hp c hm3).2.2.2
              · rcases List.mem_cons.mp hm3 with rfl | hm4
                · decide
                · exact (hq c hm4).2
  have hcore := urlsplitCore_build_q s n p q hs (fun c hc => (hn c hc).1)
    (fun c hc => ⟨(hp c hc).1, (hp c hc).2.1⟩) (fun c hc => (hq c hc).1)
  unfold urlparseM
  rw [removeCtl_eq_self hctl, hcore]
  rw [if_neg (fun hin => (hp ';' (mem_of_mem_dropWhile hin)).2.2.1 rfl)]

/-- Parsing `scheme:` alone (the shape `normalize_url` produces for inputs
that reduce to a bare scheme). -/
theorem urlparseM_scheme_only (s : Chars) (hs : validSchemeStr s = true) :
    urlparseM [] (s ++ [':']) = ⟨lowerStr s, [], [], [], [], []⟩ := by
  have hctl : ∀ c ∈ s ++ [':'], ctlChar c = false := by
    intro c hc
    rcases List.mem_append.mp hc with hm | hm
    · exact (schemeChar_facts (validSchemeStr_all hs c hm)).2.2.2.2
    · rcases List.mem_singleton.mp hm with rfl
      decide
  have hcore : urlsplitCore [] (s ++ [':']) = ⟨lowerStr s, [], [], [], [], []⟩ := by
    rw [urlsplitCore_eq]
    rw [show s ++ [':'] = s ++ ':' :: ([] : Chars) from rfl]
    rw [splitSchemeCore_valid _ _ hs]
    rfl
  unfold urlparseM
  rw [removeCtl_eq_self hctl, hcore]
  rw [if_neg (fun hin => (List.not_mem_nil ';') hin)]

/-- `urlparse`'s params split leaves the authority untouched. -/
theorem urlparseM_netloc (d u : Chars) :
    (urlparseM d u).netloc = (urlsplitCore d (removeCtl u)).netloc := by
  unfold urlparseM
  split
  · rfl
  · rfl

/-- Without brackets in the authority the `Invalid IPv6 URL` path is dead. -/
theorem invalidIPv6_false {u : Chars}
    (h1 : '[' ∉ (urlparseM [] u).netloc) (h2 : ']' ∉ (urlparseM [] u).netloc) :
    invalidIPv6 u = false := by
  rw [urlparseM_netloc] at h1 h2
  simp [invalidIPv6, h1, h2]

/-- On the non-raising path `normalize_url` is the rebuild-and-strip. -/
theorem normalizeUrl_ok {u : Chars} (h : invalidIPv6 u = false) :
    normalizeUrl u = normalizeRebuild u := by
  unfold normalizeUrl
  rw [h]
  rfl

/-- On the raising path `normalize_url` returns its input. -/
theorem normalizeUrl_raise {u : Chars} (h : invalidIPv6 u = true) :
    normalizeUrl u = u := by
  unfold normalizeUrl
  rw [h]
  rfl

/-- The `try` body of `normalize_url` written out through the parse. -/
theorem normalizeRebuild_eq (u : Chars) :
    normalizeRebuild u =
      rstripSlashes ((urlparseM [] u).scheme ++ [':', '/', '/'] ++
        (urlparseM [] u).netloc ++ (urlparseM [] u).path ++
        (if (urlparseM [] u).query = [] then [] else '?' :: (urlparseM [] u).query)) := rfl

/-! ## C5 — the shape of `normalize_url`'s output -/

/-- C5 (counterexample): the claim predicts a lowercased host and exactly
one trailing slash stripped, i.e. `http://a.test/` for the input
`http://A.test//`; the code keeps the host's case and strips **all**
trailing slashes, returning `http://A.test`.  And on `http://[/`, where
`urlparse` raises `Invalid IPv6 URL`, the `except` branch returns the
input verbatim — trailing slash included — instead of any rebuilt shape. -/
theorem c5_normalize_counterexample :
    normalizeUrl (str "http://A.test//") = str "http://A.test" ∧
    ¬ str "http://A.test" = str "http://a.test/" ∧
    normalizeUrl (str "http://[/") = str "http://[/" := by decide

/-- C5 (amended): outside `urlparse`'s `Invalid IPv6 URL` exception path —
i.e. for URLs whose authority contains no square bracket, so that the
`except` branch of `normalize_url` is dead — `normalize_url` returns the
parsed scheme (lowercased by the parser) + `://` + host with its case
preserved + path + `?` + query when the query is nonempty, with the
fragment removed and **all** trailing `/` characters stripped from the end
of the whole result: (a) the output never ends in `/`; (b) appending a
fragment never changes the output; (c) on a well-formed bracket-free
`scheme://host ++ path ++ '?' ++ query` input the output is exactly that
string with the scheme lowercased, the host, path and query verbatim, and
trailing slashes stripped.  (On the exception path `normalize_url` returns
the input verbatim, trailing slashes and fragment included.) -/
theorem c5_normalize_shape :
    (∀ (u : Chars) (c : Char), '[' ∉ (urlparseM [] u).netloc →
      ']' ∉ (urlparseM [] u).netloc →
      (normalizeUrl u).getLast? = some c → ¬ c = '/') ∧
    (∀ u f : Chars, '#' ∉ u → '[' ∉ (urlparseM [] u).netloc →
      ']' ∉ (urlparseM [] u).netloc →
      normalizeUrl (u ++ '#' :: f) = normalizeUrl u) ∧
    (∀ s n p q : Chars, validSchemeStr s = true →
      (∀ c ∈ n, keepNetloc c = true ∧ ctlChar c = false ∧ ¬ c = '[' ∧ ¬ c = ']') →
      (∀ c ∈ p, ¬ c = '?' ∧ ¬ c = '#' ∧ ¬ c = ';' ∧ ctlChar c = false ∧
        ¬ c = '[' ∧ ¬ c = ']') →
      q ≠ [] → (∀ c ∈ q, ¬ c = '#' ∧ ctlChar c = false) →
      normalizeUrl (s ++ ':' :: '/' :: '/' :: (n ++ (p ++ '?' :: q))) =
        rstripSlashes (lowerStr s ++ ':' :: '/' :: '/' :: (n ++ (p ++ '?' :: q)))) := by
  refine ⟨?_, ?_, ?_⟩
  · intro u c h1 h2 h
    rw [normalizeUrl_ok (invalidIPv6_false h1 h2), normalizeRebuild_eq] at h
    exact rstrip_last_ne h
  · intro u f hu h1 h2
    obtain ⟨hS, hN, hP, hQ⟩ := urlparseM_append_hash f hu
    rw [normalizeUrl_ok (invalidIPv6_false h1 h2),
      normalizeUrl_ok (invalidIPv6_false (fun hm => h1 (hN ▸ hm)) (fun hm => h2 (hN ▸ hm))),
      normalizeRebuild_eq, normalizeRebuild_eq, hS, hN, hP, hQ]
  · intro s n p q hs hn hp hq0 hq
    have hn2 : ∀ c ∈ n, keepNetloc c = true ∧ ctlChar c = false :=
      fun c hc => ⟨(hn c hc).1, (hn c hc).2.1⟩
    have hp2 : ∀ c ∈ p, ¬ c = '?' ∧ ¬ c = '#' ∧ ¬ c = ';' ∧ ctlChar c = false :=
      fun c hc => ⟨(hp c hc).1, (hp c hc).2.1, (hp c hc).2.2.1, (hp c hc).2.2.2.1⟩
    have hparse := urlparseM_build_q s n p q hs hn2 hp2 hq
    have hok : invalidIPv6 (s ++ ':' :: '/' :: '/' :: (n ++ (p ++ '?' :: q))) = false := by
      refine invalidIPv6_false ?_ ?_
      · rw [hparse]
        dsimp only
        intro hm
        rcases List.mem_append.mp hm with hm2 | hm2
        · exact (hn '[' hm2).2.2.1 rfl
        · exact (hp '[' (mem_of_mem_takeWhile hm2)).2.2.2.2.1 rfl
      · rw [hparse]
        dsimp only
        intro hm
        rcases List.mem_append.mp hm with hm2 | hm2
        · exact (hn ']' hm2).2.2.2 rfl
        · exact (hp ']' (mem_of_mem_takeWhile hm2)).2.2.2.2.2 rfl
    rw [normalizeUrl_ok hok, normalizeRebuild_eq, hparse]
    dsimp only
    rw [if_neg hq0]
    congr 1
    have hpd : p.takeWhile keepNetloc ++ (p.dropWhile keepNetloc ++ '?' :: q) =
        p ++ '?' :: q := by
      rw [← List.append_assoc, List.takeWhile_append_dropWhile]
    simp only [List.append_assoc, List.cons_append, List.nil_append]
    rw [hpd]

/-- C5 (witness): part (c) applied at `http://A.test/x?y` — the host keeps
its uppercase `A`. -/
theorem c5_normalize_shape_witness :
    normalizeUrl (str "http" ++ ':' :: '/' :: '/' :: (str "A.test" ++ (str "/x" ++ '?' :: str "y"))) =
      rstripSlashes (lowerStr (str "http") ++ ':' :: '/' :: '/' ::
        (str "A.test" ++ (str "/x" ++ '?' :: str "y"))) :=
  c5_normalize_shape.2.2 (str "http") (str "A.test") (str "/x") (str "y")
    (by decide) (by decide) (by decide) (by decide) (by decide)

/-! ## C6 — idempotence of `normalize_url` -/

/-- C6 (counterexample): `normalize_url` is **not** idempotent on every
input.  Three failure modes: trailing-slash stripping can reach into the
query (`http://a.test/p?/` → `http://a.test/p?` → `http://a.test/p`), can
expose a `;` in the last path segment that the reparse splits off as params
(`http://h.test/a;b//` → `http://h.test/a;b` → `http://h.test/a`), and a
scheme-less input rebuilds as `://…` which reparses differently
(`""` → `:` → `://:`). -/
theorem c6_idem_counterexample :
    ¬ normalizeUrl (normalizeUrl (str "http://a.test/p?/")) =
        normalizeUrl (str "http://a.test/p?/") ∧
    ¬ normalizeUrl (normalizeUrl (str "http://h.test/a;b//")) =
        normalizeUrl (str "http://h.test/a;b//") ∧
    ¬ normalizeUrl (normalizeUrl (str "")) = normalizeUrl (str "") := by decide

theorem rstrip_exists_nonslash {l : Chars} (h : ∃ c ∈ l, ¬ c = '/') :
    ∃ c ∈ rstripSlashes l, ¬ c = '/' := by
  have hne := rstrip_ne_nil h
  cases hx : (rstripSlashes l).getLast? with
  | none => exact absurd (List.getLast?_eq_none_iff.mp hx) hne
  | some c =>
    exact ⟨c, List.mem_of_mem_getLast? hx, rstrip_last_ne hx⟩

/-- The `try` body of `normalize_url` fixes every string already in
normalized shape: a valid lowercase scheme, `://`, a stop-character-free
host, a clean path, an optional query, with trailing slashes stripped. -/
theorem normalize_fixed (sch n p q : Chars)
    (hs : validSchemeStr sch = true) (hlow : lowerStr sch = sch)
    (hn : ∀ c ∈ n, keepNetloc c = true ∧ ctlChar c = false)
    (hp : ∀ c ∈ p, ¬ c = '?' ∧ ¬ c = '#' ∧ ¬ c = ';' ∧ ctlChar c = false)
    (hq : ∀ c ∈ q, ¬ c = '#' ∧ ctlChar c = false)
    (hq3 : q = [] ∨ ∃ c ∈ q, ¬ c = '/') :
    normalizeRebuild (rstripSlashes (sch ++ [':', '/', '/'] ++ n ++ p ++
        (if q = [] then [] else '?' :: q))) =
      rstripSlashes (sch ++ [':', '/', '/'] ++ n ++ p ++
        (if q = [] then [] else '?' :: q)) := by
  rcases hq3 with hqe | hqs
  · subst hqe
    rw [if_pos rfl, List.append_nil]
    by_cases hrp : rstripSlashes p = []
    · have hallp := rstrip_nil_all hrp
      have hX : rstripSlashes (sch ++ [':', '/', '/'] ++ n ++ p) =
          rstripSlashes (sch ++ [':', '/', '/'] ++ n) :=
        rstrip_append_slash _ hallp
      rw [hX]
      by_cases hne : n = []
      · subst hne
        rw [List.append_nil]
        have h1 : rstripSlashes (sch ++ [':', '/', '/']) = sch ++ [':'] := by
          rw [show sch ++ [':', '/', '/'] = (sch ++ [':']) ++ ['/', '/'] from by simp]
          rw [rstrip_append_slash _ (by
            intro c hc
            rcases List.mem_cons.mp hc with rfl | hc2
            · rfl
            · rcases List.mem_singleton.mp hc2 with rfl
              rfl)]
          exact rstrip_no_slash (by
            intro c hc
            rcases List.mem_append.mp hc with hm | hm
            · exact (schemeChar_facts (validSchemeStr_all hs c hm)).2.1
            · rcases List.mem_singleton.mp hm with rfl
              decide)
        rw [h1]
        rw [normalizeRebuild_eq, urlparseM_scheme_only sch hs, hlow]
        dsimp only
        rw [if_pos rfl]
        rw [List.append_nil, List.append_nil, List.append_nil]
        exact h1
      · have hrn : rstripSlashes n = n :=
          rstrip_no_slash (fun c hc => (keepNetloc_facts (hn c hc).1).1)
        have h2 : rstripSlashes (sch ++ [':', '/', '/'] ++ n) = sch ++ [':', '/', '/'] ++ n := by
          rw [rstrip_append_keep _ (by rw [hrn]; exact hne), hrn]
        rw [h2]
        have hparse : urlparseM [] (sch ++ [':', '/', '/'] ++ n) =
            ⟨lowerStr sch, n ++ List.takeWhile keepNetloc [],
             List.dropWhile keepNetloc [], [], [], []⟩ := by
          rw [show sch ++ [':', '/', '/'] ++ n = sch ++ ':' :: '/' :: '/' :: (n ++ ([] : Chars))
            from by simp]
          exact urlparseM_build_nq sch n [] hs hn (by intro c hc; cases hc)
        rw [normalizeRebuild_eq, hparse, hlow]
        dsimp only
        rw [if_pos rfl]
        simp only [List.takeWhile_nil, List.dropWhile_nil, List.append_nil]
        exact h2
    · have hX : rstripSlashes (sch ++ [':', '/', '/'] ++ n ++ p) =
          sch ++ [':', '/', '/'] ++ n ++ rstripSlashes p := by
        rw [rstrip_append_keep _ hrp]
      rw [hX]
      have hp' : ∀ c ∈ rstripSlashes p, ¬ c = '?' ∧ ¬ c = '#' ∧ ¬ c = ';' ∧ ctlChar c = false :=
        fun c hc => hp c (mem_rstrip hc)
      have hparse : urlparseM [] (sch ++ [':', '/', '/'] ++ n ++ rstripSlashes p) =
          ⟨lowerStr sch, n ++ (rstripSlashes p).takeWhile keepNetloc,
           (rstripSlashes p).dropWhile keepNetloc, [], [], []⟩ := by
        rw [show sch ++ [':', '/', '/'] ++ n ++ rstripSlashes p =
            sch ++ ':' :: '/' :: '/' :: (n ++ rstripSlashes p) from by simp [List.append_assoc]]
        exact urlparseM_build_nq sch n (rstripSlashes p) hs hn hp'
      rw [normalizeRebuild_eq, hparse, hlow]
      dsimp only
      rw [if_pos rfl]
      rw [List.append_nil]
      rw [show sch ++ [':', '/', '/'] ++ (n ++ (rstripSlashes p).takeWhile keepNetloc) ++
            (rstripSlashes p).dropWhile keepNetloc =
          sch ++ [':', '/', '/'] ++ n ++
            ((rstripSlashes p).takeWhile keepNetloc ++ (rstripSlashes p).dropWhile keepNetloc)
        from by simp [List.append_assoc]]
      rw [List.takeWhile_append_dropWhile]
      rw [rstrip_append_keep _ (by rw [rstrip_idem]; exact hrp), rstrip_idem]
  · have hqne : q ≠ [] := by
      rintro rfl
      rcases hqs with ⟨c, hc, _⟩
      cases hc
    rw [if_neg hqne]
    have hq' := rstrip_qmark_cons hqs
    have hX : rstripSlashes (sch ++ [':', '/', '/'] ++ n ++ p ++ '?' :: q) =
        sch ++ [':', '/', '/'] ++ n ++ p ++ '?' :: rstripSlashes q := by
      rw [rstrip_append_keep _ (by rw [hq']; exact List.cons_ne_nil _ _), hq']
    rw [hX]
    have hq2 : ∀ c ∈ rstripSlashes q, ¬ c = '#' ∧ ctlChar c = false :=
      fun c hc => hq c (mem_rstrip hc)
    have hparse : urlparseM [] (sch ++ [':', '/', '/'] ++ n ++ p ++ '?' :: rstripSlashes q) =
        ⟨lowerStr sch, n ++ p.takeWhile keepNetloc, p.dropWhile keepNetloc, [],
         rstripSlashes q, []⟩ := by
      rw [show sch ++ [':', '/', '/'] ++ n ++ p ++ '?' :: rstripSlashes q =
          sch ++ ':' :: '/' :: '/' :: (n ++ (p ++ '?' :: rstripSlashes q))
        from by simp [List.append_assoc]]
      exact urlparseM_build_q sch n p (rstripSlashes q) hs hn hp hq2
    rw [normalizeRebuild_eq, hparse, hlow]
    dsimp only
    rw [if_neg (rstrip_ne_nil hqs)]
    rw [show sch ++ [':', '/', '/'] ++ (n ++ p.takeWhile keepNetloc) ++
          p.dropWhile keepNetloc ++ '?' :: rstripSlashes q =
        sch ++ [':', '/', '/'] ++ n ++
          (p.takeWhile keepNetloc ++ p.dropWhile keepNetloc) ++ '?' :: rstripSlashes q
      from by simp [List.append_assoc]]
    rw [List.takeWhile_append_dropWhile]
    have hq4 := rstrip_exists_nonslash hqs
    have hmain : rstripSlashes ('?' :: rstripSlashes q) = '?' :: rstripSlashes q := by
      rw [rstrip_qmark_cons hq4, rstrip_idem]
    rw [rstrip_append_keep _ (by rw [hmain]; exact List.cons_ne_nil _ _), hmain]

/-- C6 (amended): `normalize_url` is idempotent on every input whose parse
yields a nonempty scheme, that contains no `;`, and whose parsed query is
empty or not composed solely of `/` characters.  (Outside these conditions
idempotence fails, see the counterexample.)  On the `Invalid IPv6 URL`
exception path `normalize_url` is the identity, so idempotence is immediate
there; on the non-raising path the rebuilt string is a fixed point. -/
theorem c6_normalize_idem (u : Chars)
    (h1 : ¬ (urlparseM [] u).scheme = [])
    (h2 : ';' ∉ u)
    (h3 : (urlparseM [] u).query = [] ∨ ∃ c ∈ (urlparseM [] u).query, ¬ c = '/') :
    normalizeUrl (normalizeUrl u) = normalizeUrl u := by
  have hns := urlparseM_no_semi h2
  have hcases := urlsplitCore_scheme_cases (removeCtl u)
  rw [← hns] at hcases
  rcases hcases with he | ⟨hv, hlw⟩
  · exact absurd he h1
  have hn : ∀ c ∈ (urlparseM [] u).netloc, keepNetloc c = true ∧ ctlChar c = false := by
    rw [hns]
    intro c hc
    have h := urlsplitCore_netloc_facts [] c hc
    exact ⟨h.1, (mem_removeCtl h.2).2⟩
  have hp : ∀ c ∈ (urlparseM [] u).path,
      ¬ c = '?' ∧ ¬ c = '#' ∧ ¬ c = ';' ∧ ctlChar c = false := by
    rw [hns]
    intro c hc
    have h := urlsplitCore_path_facts [] c hc
    refine ⟨h.1, h.2.1, ?_, (mem_removeCtl h.2.2).2⟩
    rintro rfl
    exact h2 (mem_removeCtl h.2.2).1
  have hq : ∀ c ∈ (urlparseM [] u).query, ¬ c = '#' ∧ ctlChar c = false := by
    rw [hns]
    intro c hc
    have h := urlsplitCore_query_facts [] c hc
    exact ⟨h.1, (mem_removeCtl h.2).2⟩
  cases hck : invalidIPv6 u with
  | true =>
    have he := normalizeUrl_raise hck
    rw [he]
    exact he
  | false =>
    rw [normalizeUrl_ok hck]
    cases hck2 : invalidIPv6 (normalizeRebuild u) with
    | true => exact normalizeUrl_raise hck2
    | false =>
      rw [normalizeUrl_ok hck2]
      rw [normalizeRebuild_eq u]
      exact normalize_fixed (urlparseM [] u).scheme (urlparseM [] u).netloc
        (urlparseM [] u).path (urlparseM [] u).query hv hlw hn hp hq h3

/-- C6 (witness): idempotence at `http://a.test/b?x=1`, which has a scheme,
no `;`, and a non-slash query. -/
theorem c6_normalize_idem_witness :
    normalizeUrl (normalizeUrl (str "http://a.test/b?x=1")) =
      normalizeUrl (str "http://a.test/b?x=1") :=
  c6_normalize_idem (str "http://a.test/b?x=1") (by decide) (by decide)
    (Or.inr (by decide))

end LinkExtractor
